import Mathlib

/-! go-timeline: merge-insertion timeline and interval classifier.

A shallow embedding of `entry.go`, `end_of_time.go`, `intersection_type.go` and
`timeline.go`.

* An instant (`time.Time`) is an integer count of ticks (nanoseconds) on the time
  line; the zero instant `time.Time{}` is `0`, and instants before it are negative.
  `Before`, `After` and `Equal` are `<`, `>` and `=`.
* A `time.Duration` is a signed 64-bit count of nanoseconds; `Time.Sub` saturates at
  its bounds.
* Text (`string`, `[]byte`) is a `String`; the library function `strings.ToLower` is
  the parameter `toLower` of the functions that call it.
* The process-wide sentinel returned by `EndOfTime()` is the explicit parameter
  `eot` of every function that reads it.
* An `Entry` is an interface value: `none` is the nil interface, `some e` holds a
  value of the only implementation, the struct `entry`.  Calling a method on the
  nil interface panics.
* A panicking call returns `Except.error`.
-/

namespace GoTimeline

/-- The zero instant `time.Time{}`, for which `IsZero` holds. -/
def zeroTime : Int := 0

/-- The initial value of the variable `endOfTime`, 9999-12-31T23:59:59.999999999 UTC, in
nanoseconds after the zero instant 0001-01-01T00:00:00 UTC. -/
def defaultEndOfTime : Int := 315537897599999999999

/-- The error constants of `errors.go`. -/
inductive timelineError where
  | ErrInvalidTimelineStart
  | ErrInvalidTimelineOrder
  | ErrInvalidIntersectionType
  deriving DecidableEq, Repr

/-- The enumeration `IntersectionType` of `intersection_type.go`. -/
inductive IntersectionType where
  | None
  | Same
  | Cover
  | Within
  | Adjacent
  | StartOverlap
  | EndOverlap
  deriving DecidableEq, Repr

/-- The struct `entry` of `entry.go`. -/
structure entry where
  start : Int
  end_ : Int
  deriving DecidableEq, Repr

/-- An interface value of type `Entry`; `none` is nil. -/
abbrev Entry := Option entry

/-- The run-time panics of the package. -/
inductive Panic where
  | nilDereference
  | unexpectedIntersection (itype : IntersectionType) (j : Nat)
  deriving DecidableEq, Repr

/-- The method `entry.StartTime`. -/
def entry.StartTime (e : entry) : Int := e.start

/-- The method `entry.EndTime`: the stored end and whether it differs from the sentinel. -/
def entry.EndTime (eot : Int) (e : entry) : Int × Bool :=
  (e.end_, !(decide (e.end_ = eot)))

/-- The largest `time.Duration`, `1<<63 - 1` nanoseconds. -/
def maxDuration : Int := 9223372036854775807

/-- The smallest `time.Duration`, `-1 << 63` nanoseconds. -/
def minDuration : Int := -9223372036854775808

/-- The library method `Time.Sub`: the difference `t - u` when it fits a `Duration`,
otherwise the minimum or the maximum duration. -/
def timeSub (t u : Int) : Int :=
  if minDuration ≤ t - u ∧ t - u ≤ maxDuration then t - u
  else if t < u then minDuration
  else maxDuration

/-- The method `entry.Duration`. -/
def entry.Duration (e : entry) : Int := timeSub e.end_ e.start

/-- The constructor `NewEntry`. -/
def NewEntry (eot : Int) (start end_ : Int) : Except timelineError entry :=
  if start = zeroTime then
    .error .ErrInvalidTimelineStart
  else if ¬ (end_ = zeroTime ∨ start < end_) then
    .error .ErrInvalidTimelineOrder
  else
    let end_ := if end_ = zeroTime then eot else end_
    .ok { start := start, end_ := end_ }

/-- The value kept by `ne, _ := NewEntry(st, et)`: nil when the constructor fails. -/
def newEntryOrNil (eot : Int) (start end_ : Int) : Entry :=
  match NewEntry eot start end_ with
  | .ok e => some e
  | .error _ => none

/-- A method call through an interface value: panics on nil. -/
def deref (e : Entry) : Except Panic entry :=
  match e with
  | some v => .ok v
  | none => .error .nilDereference

/-- The function `Intersect` on two non-nil entries. -/
def Intersect (eot : Int) (refEntry newEntry : entry) : IntersectionType :=
  let refStart := refEntry.StartTime
  let (refEnd, refHasEnd) := refEntry.EndTime eot
  let newStart := newEntry.StartTime
  let (newEnd, newHasEnd) := newEntry.EndTime eot
  let refEnd := if !refHasEnd then eot else refEnd
  let newEnd := if !newHasEnd then eot else newEnd
  if newStart < refStart then
    if newEnd < refStart then .None
    else if newEnd = refStart then .Adjacent
    else if newEnd > refEnd then .Cover
    else .StartOverlap
  else if newStart > refStart then
    if newStart > refEnd then .None
    else if newStart = refEnd then .Adjacent
    else if ¬ (newEnd > refEnd) then .Within
    else .EndOverlap
  else
    if newEnd < refEnd then .Within
    else if newEnd > refEnd then .EndOverlap
    else .Same

/-- The slice type `Timeline`. -/
abbrev Timeline := List Entry

/-- The inner loop of `addEntry` (the sweep over the entries after position `i`):
`ne` is the merged entry, `j` the loop index, `et` the saved end; the result is the
final `et` and the entries that remain after position `i`.  A removal followed by
`j--` and the loop's `j++` leaves `j` where it was. -/
def sweep (eot : Int) (ne : Entry) (j : Nat) : Int → List Entry → Except Panic (Int × List Entry)
  | et, [] => .ok (et, [])
  | et, ee :: rest =>
    match deref ee with
    | .error p => .error p
    | .ok e =>
      match deref ne with
      | .error p => .error p
      | .ok n =>
        match Intersect eot e n with
        | .None => .ok (et, ee :: rest)
        | .Cover => sweep eot ne j et rest
        | .StartOverlap => sweep eot ne j (e.EndTime eot).1 rest
        | .Adjacent => sweep eot ne j (e.EndTime eot).1 rest
        | .Same => .error (.unexpectedIntersection .Same j)
        | .Within => .error (.unexpectedIntersection .Within j)
        | .EndOverlap => .error (.unexpectedIntersection .EndOverlap j)

/-- The `Cover`/`EndOverlap` case of `addEntry` at position `i`, whose entry is `r`,
for the new entry `c`; `rest` holds the later entries.  The result is the new list from
position `i` on and the returned boolean. -/
def mergeAt (eot : Int) (r c : entry) (i : Nat) (rest : List Entry) :
    Except Panic (List Entry × Bool) :=
  let st := if c.StartTime < r.StartTime then c.StartTime else r.StartTime
  let et := (c.EndTime eot).1
  let ne := newEntryOrNil eot st et
  match sweep eot ne (i + 1) et rest with
  | .error p => .error p
  | .ok (et, rest) =>
    match deref ne with
    | .error p => .error p
    | .ok n =>
      let ne := if (n.EndTime eot).1 < et then newEntryOrNil eot st et else ne
      .ok (ne :: rest, true)

/-- The scan `for i, refEntry := range *tl` of `addEntry`, from position `i` on; the
result is the new list from position `i` on and the returned boolean.  Falling off the
end appends the entry. -/
def addEntryLoop (eot : Int) (entry : Entry) : Nat → List Entry → Except Panic (List Entry × Bool)
  | _, [] => .ok ([entry], true)
  | i, refEntry :: rest =>
    match deref refEntry with
    | .error p => .error p
    | .ok r =>
      match deref entry with
      | .error p => .error p
      | .ok c =>
        match Intersect eot r c with
        | .Same => .ok (refEntry :: rest, false)
        | .Within => .ok (refEntry :: rest, false)
        | .None =>
          if c.StartTime < r.StartTime then
            .ok (entry :: refEntry :: rest, true)
          else
            match addEntryLoop eot entry (i + 1) rest with
            | .error p => .error p
            | .ok (rest, changed) => .ok (refEntry :: rest, changed)
        | .Adjacent =>
          let st := if r.StartTime < c.StartTime then r.StartTime else c.StartTime
          let et := if (r.EndTime eot).1 > (c.EndTime eot).1 then (r.EndTime eot).1
                    else (c.EndTime eot).1
          .ok (newEntryOrNil eot st et :: rest, true)
        | .StartOverlap =>
          .ok (newEntryOrNil eot c.StartTime (r.EndTime eot).1 :: rest, true)
        | .Cover => mergeAt eot r c i rest
        | .EndOverlap => mergeAt eot r c i rest

/-- The method `Timeline.addEntry`: the new timeline and the returned boolean. -/
def addEntry (eot : Int) (tl : Timeline) (entry : Entry) : Except Panic (Timeline × Bool) :=
  if tl.length = 0 then
    .ok (tl ++ [entry], true)
  else
    addEntryLoop eot entry 0 tl

/-- The loop of `Timeline.Add` with its flag `updated`. -/
def addAll (eot : Int) : Timeline → Bool → List Entry → Except Panic (Timeline × Bool)
  | tl, updated, [] => .ok (tl, updated)
  | tl, updated, e :: es =>
    match addEntry eot tl e with
    | .error p => .error p
    | .ok (tl, changed) => addAll eot tl (if changed then true else updated) es

/-- The method `Timeline.Add`. -/
def Add (eot : Int) (tl : Timeline) (entries : List Entry) : Except Panic (Timeline × Bool) :=
  addAll eot tl false entries

/-- The function `New`. -/
def New (eot : Int) (entries : List Entry) : Except Panic Timeline :=
  match Add eot [] entries with
  | .error p => .error p
  | .ok (tl, _) => .ok tl

/-- The replay loop of `Normalize`: each entry goes through `addEntry`, its boolean dropped. -/
def replay (eot : Int) : Timeline → List Entry → Except Panic Timeline
  | ntl, [] => .ok ntl
  | ntl, e :: es =>
    match addEntry eot ntl e with
    | .error p => .error p
    | .ok (ntl, _) => replay eot ntl es

/-- The method `Timeline.Normalize`. -/
def Normalize (eot : Int) (tl : Timeline) : Except Panic Timeline :=
  if tl.length > 0 then replay eot [] tl else .ok tl

/-- The scan `for _, e := range tl` of `Contains`. -/
def containsLoop (eot : Int) (t : Int) : List Entry → Except Panic (Bool × Int × Int)
  | [] => .ok (false, zeroTime, zeroTime)
  | x :: rest =>
    match deref x with
    | .error p => .error p
    | .ok e =>
      let sd := e.StartTime
      let (ed, hasEnd) := e.EndTime eot
      if sd > t then containsLoop eot t rest
      else if sd = t then .ok (true, sd, ed)
      else if !hasEnd || !(decide (t > ed)) then .ok (true, sd, ed)
      else containsLoop eot t rest

/-- The method `Timeline.Contains`. -/
def Contains (eot : Int) (tl : Timeline) (t : Int) : Except Panic (Bool × Int × Int) :=
  if t = zeroTime then
    .ok (false, zeroTime, zeroTime)
  else
    containsLoop eot t tl

/-- The integer that `iota` gives each constant of `IntersectionType`. -/
def IntersectionType.code : IntersectionType → Int
  | .None => 0
  | .Same => 1
  | .Cover => 2
  | .Within => 3
  | .Adjacent => 4
  | .StartOverlap => 5
  | .EndOverlap => 6

/-- The map literal of the method `IntersectionType.String`. -/
def stringTable : List (Int × String) :=
  [(IntersectionType.code .None, "none"),
   (IntersectionType.code .Same, "same"),
   (IntersectionType.code .Cover, "cover"),
   (IntersectionType.code .Within, "within"),
   (IntersectionType.code .Adjacent, "adjacent"),
   (IntersectionType.code .StartOverlap, "start"),
   (IntersectionType.code .EndOverlap, "end")]

/-- The method `IntersectionType.String`, on any value `v` of the integer type. -/
def intersectionTypeString (v : Int) : String :=
  match stringTable.lookup v with
  | some s => s
  | none => "unknown"

/-- The map literal of `parseIntersectionTypeValue`. -/
def parseTable : List (String × IntersectionType) :=
  [("none", .None),
   ("same", .Same),
   ("cover", .Cover),
   ("within", .Within),
   ("adjacent", .Adjacent),
   ("start", .StartOverlap),
   ("end", .EndOverlap)]

/-- The function `parseIntersectionTypeValue`: the value and the error (`none` is nil). -/
def parseIntersectionTypeValue (toLower : String → String) (s : String) :
    IntersectionType × Option timelineError :=
  match parseTable.lookup (toLower s) with
  | none => (.None, some .ErrInvalidIntersectionType)
  | some v => (v, none)

/-- The function `ParseIntersectionType`. -/
def ParseIntersectionType (toLower : String → String) (s : String) : IntersectionType :=
  match parseIntersectionTypeValue toLower s with
  | (_, some _) => .None
  | (v, none) => v

/-- The method `IntersectionType.MarshalText`: the text and the error (always nil). -/
def MarshalText (v : Int) : String × Option timelineError :=
  (intersectionTypeString v, none)

/-- The method `IntersectionType.UnmarshalText` on a receiver holding `v`: the value the
receiver holds afterwards and the returned error. -/
def UnmarshalText (toLower : String → String) (v : Int) (p : String) :
    Int × Option timelineError :=
  match parseIntersectionTypeValue toLower p with
  | (_, some err) => (v, some err)
  | (r, none) => (r.code, none)

/-! ## Specification vocabulary -/

deriving instance DecidableEq for Except

/-- The end of an entry's span: the stored end, or the sentinel when `EndTime` reports
that there is no end. -/
def entry.spanEnd (eot : Int) (e : entry) : Int :=
  match e.EndTime eot with
  | (ed, true) => ed
  | (_, false) => eot

/-- A valid interval: a value that `NewEntry` returns (when given the entry's own start
and end, the end omitted when the entry is open) whose start is strictly before the end
of its span. -/
def Valid (eot : Int) (e : entry) : Prop :=
  NewEntry eot e.StartTime (if (e.EndTime eot).2 then (e.EndTime eot).1 else zeroTime) = .ok e
    ∧ e.StartTime < e.spanEnd eot

instance instDecidableValid (eot : Int) (e : entry) : Decidable (Valid eot e) := by
  unfold Valid
  infer_instance

/-- The timeline invariant: every entry's end is strictly before the next entry's start. -/
def Invariant (eot : Int) : List entry → Prop
  | [] => True
  | [_] => True
  | a :: b :: rest => a.spanEnd eot < b.StartTime ∧ Invariant eot (b :: rest)

/-- Deciding the invariant, pair by pair. -/
def decInvariant (eot : Int) : (tl : List entry) → Decidable (Invariant eot tl)
  | [] => isTrue trivial
  | [_] => isTrue trivial
  | a :: b :: rest =>
    match decInvariant eot (b :: rest) with
    | isTrue h =>
      if hab : a.spanEnd eot < b.StartTime then isTrue ⟨hab, h⟩
      else isFalse (fun hh => hab hh.1)
    | isFalse h => isFalse (fun hh => h hh.2)

instance instDecidableInvariant (eot : Int) (tl : List entry) : Decidable (Invariant eot tl) :=
  decInvariant eot tl

/-- Strictly ascending start times. -/
def StartsAscending (tl : List entry) : Prop :=
  List.Pairwise (fun a b => a.StartTime < b.StartTime) tl

/-- The instant `t` lies in the closed span of some entry of `tl`. -/
def Covers (eot : Int) (tl : List entry) (t : Int) : Prop :=
  ∃ e ∈ tl, e.StartTime ≤ t ∧ t ≤ e.spanEnd eot

/-- The decision table of the specification (section 4.2), on the four bounds. -/
def Classify (rs re cs ce : Int) : IntersectionType :=
  if cs < rs then
    if ce < rs then .None
    else if ce = rs then .Adjacent
    else if ce > re then .Cover
    else .StartOverlap
  else if cs > rs then
    if cs > re then .None
    else if cs = re then .Adjacent
    else if ce ≤ re then .Within
    else .EndOverlap
  else
    if ce < re then .Within
    else if ce > re then .EndOverlap
    else .Same

/-- The match condition of the point query, in the words of the specification: `t` equals
the entry's start, or the start is before `t` and the entry has no end or `t` is at or
before its end. -/
def Matches (eot : Int) (t : Int) (e : entry) : Prop :=
  e.StartTime = t ∨ (e.StartTime < t ∧ ((e.EndTime eot).2 = false ∨ t ≤ (e.EndTime eot).1))

instance instDecidableMatches (eot t : Int) (e : entry) : Decidable (Matches eot t e) := by
  unfold Matches
  infer_instance

/-- The match condition as a span test: the start is at or before `t` and, if the entry
has an end, `t` is at or before it. -/
def MatchesSpan (eot : Int) (t : Int) (e : entry) : Prop :=
  e.StartTime ≤ t ∧ ((e.EndTime eot).2 = true → t ≤ (e.EndTime eot).1)

instance instDecidableMatchesSpan (eot t : Int) (e : entry) :
    Decidable (MatchesSpan eot t e) := by
  unfold MatchesSpan
  infer_instance

/-- The text form of each relation tag, as the specification lists them. -/
def tagName : IntersectionType → String
  | .None => "none"
  | .Same => "same"
  | .Cover => "cover"
  | .Within => "within"
  | .Adjacent => "adjacent"
  | .StartOverlap => "start"
  | .EndOverlap => "end"

/-- Lower-casing of the ASCII letters, one function that the parameter `toLower` can be. -/
def asciiToLower (s : String) : String :=
  String.mk (s.data.map Char.toLower)

/-- The entries after position `i` that a merge at `i` absorbs, in the words of the
specification: every following entry whose start is at or before the candidate's end. -/
def absorbedAfter (eot : Int) (c : entry) (rest : List entry) : List entry :=
  rest.filter (fun e => decide (e.StartTime ≤ c.spanEnd eot))

/-- The entries after position `i` that a merge at `i` leaves in place, in their order. -/
def keptAfter (eot : Int) (c : entry) (rest : List entry) : List entry :=
  rest.filter (fun e => !decide (e.StartTime ≤ c.spanEnd eot))

/-- The end of the merged entry: the larger of the candidate's end and the end of the
last absorbed entry (the candidate's end when nothing is absorbed). -/
def mergedEnd (eot : Int) (c : entry) (absorbed : List entry) : Int :=
  match absorbed.getLast? with
  | none => c.spanEnd eot
  | some l => max (c.spanEnd eot) (l.spanEnd eot)

/-- The single entry that replaces entry `r` and the absorbed entries: from the smaller
of the two starts to `mergedEnd`. -/
def mergedEntry (eot : Int) (r c : entry) (rest : List entry) : entry :=
  { start := min r.StartTime c.StartTime,
    end_ := mergedEnd eot c (absorbedAfter eot c rest) }

/-! ## The merge on non-nil entries

`sweepEntries` and `addEntryEntries` follow `sweep` and `addEntryLoop` on lists of
struct values, with the constructor calls replaced by the entry they return on valid
bounds.  `sweep_eq` and `addEntryLoop_eq` below relate them to the functions above. -/

/-- The sweep of `addEntry` on non-nil entries (the panic cases stop the sweep). -/
def sweepEntries (eot : Int) (ne : entry) : Int → List entry → Int × List entry
  | et, [] => (et, [])
  | et, ee :: rest =>
    match Intersect eot ee ne with
    | .None => (et, ee :: rest)
    | .Cover => sweepEntries eot ne et rest
    | .StartOverlap => sweepEntries eot ne ee.end_ rest
    | .Adjacent => sweepEntries eot ne ee.end_ rest
    | .Same => (et, ee :: rest)
    | .Within => (et, ee :: rest)
    | .EndOverlap => (et, ee :: rest)

/-- The `Cover`/`EndOverlap` case of `addEntry` on non-nil entries. -/
def mergeEntries (eot : Int) (r c : entry) (rest : List entry) : List entry :=
  let st := min c.start r.start
  let s := sweepEntries eot { start := st, end_ := c.end_ } c.end_ rest
  { start := st, end_ := max c.end_ s.1 } :: s.2

/-- The scan of `addEntry` on non-nil entries. -/
def addEntryEntries (eot : Int) (c : entry) : List entry → List entry × Bool
  | [] => ([c], true)
  | r :: rest =>
    match Intersect eot r c with
    | .Same => (r :: rest, false)
    | .Within => (r :: rest, false)
    | .None =>
      if c.start < r.start then (c :: r :: rest, true)
      else (r :: (addEntryEntries eot c rest).1, (addEntryEntries eot c rest).2)
    | .Adjacent => ({ start := min r.start c.start, end_ := max r.end_ c.end_ } :: rest, true)
    | .StartOverlap => ({ start := c.start, end_ := r.end_ } :: rest, true)
    | .Cover => (mergeEntries eot r c rest, true)
    | .EndOverlap => (mergeEntries eot r c rest, true)

/-- Replaying a list of non-nil entries through `addEntryEntries`. -/
def replayEntries (eot : Int) : List entry → List entry → List entry
  | ntl, [] => ntl
  | ntl, e :: es => replayEntries eot (addEntryEntries eot e ntl).1 es

/-! ## The classifier -/

theorem spanEnd_eq (eot : Int) (e : entry) : e.spanEnd eot = e.end_ := by
  unfold entry.spanEnd entry.EndTime
  by_cases h : e.end_ = eot <;> simp [h]

theorem valid_iff (eot : Int) (e : entry) :
    Valid eot e ↔ e.start ≠ 0 ∧ e.start < e.end_ ∧ (e.end_ = 0 → eot = 0) := by
  unfold Valid
  rw [spanEnd_eq]
  unfold NewEntry entry.EndTime entry.StartTime zeroTime
  obtain ⟨s, t⟩ := e
  by_cases h1 : t = eot <;> by_cases h2 : s = 0 <;> by_cases h3 : t = 0 <;>
    by_cases h4 : s < t <;> simp [h1, h2, h3, h4]
  all_goals omega

theorem Intersect_eq (eot : Int) (r c : entry) :
    Intersect eot r c = Classify r.start r.end_ c.start c.end_ := by
  unfold Intersect Classify entry.EndTime entry.StartTime
  by_cases hr : r.end_ = eot <;> by_cases hc : c.end_ = eot <;> simp [hr, hc]

theorem Intersect_cases (eot : Int) (r c : entry) :
    match Intersect eot r c with
    | .None => (c.start < r.start ∧ c.end_ < r.start) ∨ (r.start < c.start ∧ r.end_ < c.start)
    | .Adjacent => (c.start < r.start ∧ c.end_ = r.start) ∨ (r.start < c.start ∧ c.start = r.end_)
    | .Cover => c.start < r.start ∧ r.start < c.end_ ∧ r.end_ < c.end_
    | .StartOverlap => c.start < r.start ∧ r.start < c.end_ ∧ c.end_ ≤ r.end_
    | .Within =>
      (r.start < c.start ∧ c.start < r.end_ ∧ c.end_ ≤ r.end_) ∨ (c.start = r.start ∧ c.end_ < r.end_)
    | .EndOverlap =>
      (r.start < c.start ∧ c.start < r.end_ ∧ r.end_ < c.end_) ∨ (c.start = r.start ∧ r.end_ < c.end_)
    | .Same => c.start = r.start ∧ c.end_ = r.end_ := by
  rw [Intersect_eq]
  unfold Classify
  split_ifs <;> dsimp only <;> omega

/-! ## The functions on interface values agree with the merge on non-nil entries -/

theorem newEntryOrNil_valid (eot st et : Int) (h0 : st ≠ 0) (h1 : st < et)
    (h2 : et = 0 → eot = 0) : newEntryOrNil eot st et = some { start := st, end_ := et } := by
  unfold newEntryOrNil NewEntry zeroTime
  by_cases h : et = 0
  · have := h2 h
    simp [h0, h, this]
  · simp [h0, h, h1]

theorem sweepEntries_fst (eot : Int) (ne : entry) (rest : List entry) :
    ∀ et, (sweepEntries eot ne et rest).1 = et ∨
      ∃ e ∈ rest, (sweepEntries eot ne et rest).1 = e.end_ := by
  induction rest with
  | nil => intro et; left; rfl
  | cons ee rest ih =>
    intro et
    unfold sweepEntries
    cases hI : Intersect eot ee ne <;> simp only []
    · left; trivial
    · left; trivial
    · rcases ih et with h | ⟨e, he, h⟩
      · left; exact h
      · right; exact ⟨e, List.mem_cons_of_mem _ he, h⟩
    · left; trivial
    · rcases ih ee.end_ with h | ⟨e, he, h⟩
      · right; exact ⟨ee, List.mem_cons_self _ _, h⟩
      · right; exact ⟨e, List.mem_cons_of_mem _ he, h⟩
    · rcases ih ee.end_ with h | ⟨e, he, h⟩
      · right; exact ⟨ee, List.mem_cons_self _ _, h⟩
      · right; exact ⟨e, List.mem_cons_of_mem _ he, h⟩
    · left; trivial

theorem sweepEntries_suffix (eot : Int) (ne : entry) (rest : List entry) :
    ∀ et, (sweepEntries eot ne et rest).2 <:+ rest := by
  induction rest with
  | nil => intro et; exact List.suffix_refl _
  | cons ee rest ih =>
    intro et
    unfold sweepEntries
    cases hI : Intersect eot ee ne <;> simp only []
    · exact List.suffix_refl _
    · exact List.suffix_refl _
    · exact (ih et).trans (List.suffix_cons _ _)
    · exact List.suffix_refl _
    · exact (ih _).trans (List.suffix_cons _ _)
    · exact (ih _).trans (List.suffix_cons _ _)
    · exact List.suffix_refl _

theorem sweep_eq (eot : Int) (ne : entry) (j : Nat) (rest : List entry) :
    ∀ et, (∀ e ∈ rest, ne.start < e.start) →
      sweep eot (some ne) j et (rest.map some) =
        .ok ((sweepEntries eot ne et rest).1, (sweepEntries eot ne et rest).2.map some) := by
  induction rest with
  | nil => intro et _; rfl
  | cons ee rest ih =>
    intro et h
    have hc := Intersect_cases eot ee ne
    have hlt := h ee (List.mem_cons_self _ _)
    have hrest : ∀ e ∈ rest, ne.start < e.start := fun e he => h e (List.mem_cons_of_mem _ he)
    simp only [List.map_cons, sweep, deref, sweepEntries]
    cases hI : Intersect eot ee ne <;> rw [hI] at hc <;> simp only [] at hc ⊢
    case None => simp
    case Same => omega
    case Cover => exact ih et hrest
    case Within => omega
    case Adjacent => exact ih _ hrest
    case StartOverlap => exact ih _ hrest
    case EndOverlap => omega

theorem ite_eq_min (a b : Int) : (if a < b then a else b) = min a b := by
  split_ifs <;> omega

theorem mergeAt_eq (eot : Int) (r c : entry) (i : Nat) (rest : List entry)
    (hr : Valid eot r) (hc : Valid eot c) (hv : ∀ e ∈ rest, Valid eot e)
    (hs : ∀ e ∈ rest, r.start < e.start) :
    mergeAt eot r c i (rest.map some) = .ok ((mergeEntries eot r c rest).map some, true) := by
  rw [valid_iff] at hr hc
  have hne : newEntryOrNil eot (min c.start r.start) c.end_ =
      some { start := min c.start r.start, end_ := c.end_ } :=
    newEntryOrNil_valid eot _ _ (by omega) (by omega) hc.2.2
  have hsw := sweep_eq eot { start := min c.start r.start, end_ := c.end_ } (i + 1) rest c.end_
    (fun e he => by have := hs e he; simp only []; omega)
  unfold mergeAt mergeEntries
  simp only [entry.StartTime, entry.EndTime, ite_eq_min, hne, hsw, deref, List.map_cons]
  rcases sweepEntries_fst eot { start := min c.start r.start, end_ := c.end_ } rest c.end_
    with h | ⟨e, he, h⟩
  · rw [h]
    simp
  · rw [h]
    have hve := (valid_iff eot e).1 (hv e he)
    by_cases hlt : c.end_ < e.end_
    · rw [if_pos hlt, newEntryOrNil_valid eot _ _ (by omega) (by omega) hve.2.2]
      simp [max_eq_right (le_of_lt hlt)]
    · rw [if_neg hlt]
      simp [max_eq_left (not_lt.1 hlt)]

theorem addEntryLoop_eq (eot : Int) (c : entry) (hc : Valid eot c) (tl : List entry) :
    ∀ i, (∀ e ∈ tl, Valid eot e) → StartsAscending tl →
      addEntryLoop eot (some c) i (tl.map some) =
        .ok ((addEntryEntries eot c tl).1.map some, (addEntryEntries eot c tl).2) := by
  induction tl with
  | nil => intro i _ _; rfl
  | cons r rest ih =>
    intro i hv hs
    have hcr := Intersect_cases eot r c
    have hr := hv r (List.mem_cons_self _ _)
    have hvr : ∀ e ∈ rest, Valid eot e := fun e he => hv e (List.mem_cons_of_mem _ he)
    have hsr : ∀ e ∈ rest, r.start < e.start := (List.pairwise_cons.1 hs).1
    have hr2 := (valid_iff eot r).1 hr
    have hc2 := (valid_iff eot c).1 hc
    simp only [List.map_cons, addEntryLoop, deref, addEntryEntries, entry.StartTime,
      entry.EndTime]
    cases hI : Intersect eot r c <;> rw [hI] at hcr <;> simp only [] at hcr ⊢
    case None =>
      by_cases hlt : c.start < r.start
      · simp [hlt]
      · simp only [hlt, if_false]
        rw [ih (i + 1) hvr (List.pairwise_cons.1 hs).2]
        simp
    case Same => simp
    case Within => simp
    case Cover => exact mergeAt_eq eot r c i rest hr hc hvr hsr
    case EndOverlap => exact mergeAt_eq eot r c i rest hr hc hvr hsr
    case Adjacent =>
      rw [ite_eq_min, newEntryOrNil_valid eot _ _ (by omega) (by omega) (by
        split_ifs <;> omega)]
      simp
      split_ifs <;> omega
    case StartOverlap =>
      rw [newEntryOrNil_valid eot _ _ (by omega) (by omega) hr2.2.2]
      simp

theorem addEntry_eq (eot : Int) (c : entry) (hc : Valid eot c) (tl : List entry)
    (hv : ∀ e ∈ tl, Valid eot e) (hs : StartsAscending tl) :
    addEntry eot (tl.map some) (some c) =
      .ok ((addEntryEntries eot c tl).1.map some, (addEntryEntries eot c tl).2) := by
  unfold addEntry
  cases tl with
  | nil => rfl
  | cons r rest =>
    rw [if_neg (by simp)]
    exact addEntryLoop_eq eot c hc (r :: rest) 0 hv hs

/-! ## Validity and ascending starts are preserved -/

theorem mergeEntries_valid (eot : Int) (r c : entry) (rest : List entry)
    (hr : Valid eot r) (hc : Valid eot c) (hv : ∀ e ∈ rest, Valid eot e) :
    ∀ e ∈ mergeEntries eot r c rest, Valid eot e := by
  intro e he
  unfold mergeEntries at he
  simp only [List.mem_cons] at he
  rcases he with he | he
  · have hr2 := (valid_iff eot r).1 hr
    have hc2 := (valid_iff eot c).1 hc
    rw [valid_iff, he]
    simp only []
    rcases sweepEntries_fst eot { start := min c.start r.start, end_ := c.end_ } rest c.end_
      with h | ⟨x, hx, h⟩
    · rw [h]
      refine ⟨by omega, by omega, fun h0 => hc2.2.2 (by omega)⟩
    · rw [h]
      have hx2 := (valid_iff eot x).1 (hv x hx)
      refine ⟨by omega, by omega, fun h0 => ?_⟩
      rcases le_total c.end_ x.end_ with hle | hle
      · rw [max_eq_right hle] at h0
        exact hx2.2.2 h0
      · rw [max_eq_left hle] at h0
        exact hc2.2.2 h0
  · exact hv e ((sweepEntries_suffix eot _ rest c.end_).subset he)

theorem mergeEntries_starts (eot : Int) (r c : entry) (rest : List entry)
    (hs : StartsAscending (r :: rest)) : StartsAscending (mergeEntries eot r c rest) := by
  unfold mergeEntries StartsAscending
  unfold StartsAscending at hs
  rw [List.pairwise_cons] at hs ⊢
  have hsuf := sweepEntries_suffix eot { start := min c.start r.start, end_ := c.end_ } rest c.end_
  refine ⟨fun x hx => ?_, hs.2.sublist hsuf.sublist⟩
  have := hs.1 x (hsuf.subset hx)
  simp only [entry.StartTime] at this ⊢
  omega

theorem addEntryEntries_valid (eot : Int) (c : entry) (hc : Valid eot c) (tl : List entry) :
    (∀ e ∈ tl, Valid eot e) → ∀ e ∈ (addEntryEntries eot c tl).1, Valid eot e := by
  induction tl with
  | nil =>
    intro _ e he
    simp only [addEntryEntries, List.mem_singleton] at he
    rw [he]; exact hc
  | cons r rest ih =>
    intro hv
    have hr := hv r (List.mem_cons_self _ _)
    have hvr : ∀ e ∈ rest, Valid eot e := fun e he => hv e (List.mem_cons_of_mem _ he)
    have hr2 := (valid_iff eot r).1 hr
    have hc2 := (valid_iff eot c).1 hc
    unfold addEntryEntries
    cases hI : Intersect eot r c <;> simp only []
    case None =>
      split_ifs
      · intro e he
        rcases List.mem_cons.1 he with h | h
        · rw [h]; exact hc
        · exact hv e h
      · intro e he
        rcases List.mem_cons.1 he with h | h
        · rw [h]; exact hr
        · exact ih hvr e h
    case Same => exact hv
    case Within => exact hv
    case Cover => exact mergeEntries_valid eot r c rest hr hc hvr
    case EndOverlap => exact mergeEntries_valid eot r c rest hr hc hvr
    case Adjacent =>
      intro e he
      rcases List.mem_cons.1 he with h | h
      · rw [h, valid_iff]
        simp only []
        refine ⟨by omega, by omega, fun h0 => ?_⟩
        rcases le_total r.end_ c.end_ with hle | hle
        · rw [max_eq_right hle] at h0
          exact hc2.2.2 h0
        · rw [max_eq_left hle] at h0
          exact hr2.2.2 h0
      · exact hvr e h
    case StartOverlap =>
      have hcr := Intersect_cases eot r c
      rw [hI] at hcr
      simp only [] at hcr
      intro e he
      rcases List.mem_cons.1 he with h | h
      · rw [h, valid_iff]
        exact ⟨hc2.1, by simp only []; omega, hr2.2.2⟩
      · exact hvr e h

theorem addEntryEntries_lower (eot : Int) (c : entry) (tl : List entry) (b : Int)
    (hc : b < c.start) : (∀ e ∈ tl, b < e.start) →
      ∀ e ∈ (addEntryEntries eot c tl).1, b < e.start := by
  induction tl with
  | nil =>
    intro _ e he
    simp only [addEntryEntries, List.mem_singleton] at he
    rw [he]; exact hc
  | cons r rest ih =>
    intro hb
    have hr := hb r (List.mem_cons_self _ _)
    have hbr : ∀ e ∈ rest, b < e.start := fun e he => hb e (List.mem_cons_of_mem _ he)
    unfold addEntryEntries
    cases hI : Intersect eot r c <;> simp only []
    case None =>
      split_ifs
      · intro e he
        rcases List.mem_cons.1 he with h | h
        · rw [h]; exact hc
        · exact hb e h
      · intro e he
        rcases List.mem_cons.1 he with h | h
        · rw [h]; exact hr
        · exact ih hbr e h
    case Same => exact hb
    case Within => exact hb
    case Adjacent =>
      intro e he
      rcases List.mem_cons.1 he with h | h
      · rw [h]; simp only []; omega
      · exact hbr e h
    case StartOverlap =>
      intro e he
      rcases List.mem_cons.1 he with h | h
      · rw [h]; exact hc
      · exact hbr e h
    all_goals
      intro e he
      unfold mergeEntries at he
      rcases List.mem_cons.1 he with h | h
      · rw [h]; simp only []; omega
      · exact hbr e ((sweepEntries_suffix eot _ rest c.end_).subset h)

theorem addEntryEntries_starts (eot : Int) (c : entry) (tl : List entry) :
    StartsAscending tl → StartsAscending (addEntryEntries eot c tl).1 := by
  induction tl with
  | nil => intro _; simp [addEntryEntries, StartsAscending]
  | cons r rest ih =>
    intro hs
    have hcr := Intersect_cases eot r c
    have hs2 := List.pairwise_cons.1 hs
    simp only [entry.StartTime] at hs2
    unfold addEntryEntries
    cases hI : Intersect eot r c <;> rw [hI] at hcr <;> simp only [] at hcr ⊢
    case None =>
      split_ifs with hlt
      · refine List.pairwise_cons.2 ⟨fun x hx => ?_, hs⟩
        simp only [entry.StartTime]
        rcases List.mem_cons.1 hx with h | h
        · rw [h]; exact hlt
        · have := hs2.1 x h; omega
      · refine List.pairwise_cons.2 ⟨fun x hx => ?_, ih hs2.2⟩
        exact addEntryEntries_lower eot c rest r.start (by omega) hs2.1 x hx
    case Same => exact hs
    case Within => exact hs
    case Cover => exact mergeEntries_starts eot r c rest hs
    case EndOverlap => exact mergeEntries_starts eot r c rest hs
    case Adjacent =>
      refine List.pairwise_cons.2 ⟨fun x hx => ?_, hs2.2⟩
      have := hs2.1 x hx
      simp only [entry.StartTime]
      omega
    case StartOverlap =>
      refine List.pairwise_cons.2 ⟨fun x hx => ?_, hs2.2⟩
      have := hs2.1 x hx
      simp only [entry.StartTime]
      omega

/-! ## Coverage -/

theorem covers_nil (eot t : Int) : ¬ Covers eot [] t := by
  simp [Covers]

theorem covers_cons (eot : Int) (e : entry) (tl : List entry) (t : Int) :
    Covers eot (e :: tl) t ↔ (e.start ≤ t ∧ t ≤ e.end_) ∨ Covers eot tl t := by
  simp [Covers, spanEnd_eq, entry.StartTime]

theorem invariant_cons (eot : Int) (rest : List entry) :
    ∀ r, Invariant eot (r :: rest) → (∀ e ∈ rest, Valid eot e) →
      (∀ e ∈ rest, r.end_ < e.start) ∧ Invariant eot rest := by
  induction rest with
  | nil => intro r _ _; exact ⟨by simp, trivial⟩
  | cons x rest ih =>
    intro r h hv
    have h : r.spanEnd eot < x.StartTime ∧ Invariant eot (x :: rest) := h
    rw [spanEnd_eq] at h
    simp only [entry.StartTime] at h
    refine ⟨fun e he => ?_, h.2⟩
    rcases List.mem_cons.1 he with he | he
    · rw [he]; exact h.1
    · have hx := (valid_iff eot x).1 (hv x (List.mem_cons_self _ _))
      have := (ih x h.2 (fun e he => hv e (List.mem_cons_of_mem _ he))).1 e he
      omega

theorem invariant_starts (eot : Int) (tl : List entry) :
    Invariant eot tl → (∀ e ∈ tl, Valid eot e) → StartsAscending tl := by
  induction tl with
  | nil => intro _ _; exact List.Pairwise.nil
  | cons r rest ih =>
    intro h hv
    have hvr : ∀ e ∈ rest, Valid eot e := fun e he => hv e (List.mem_cons_of_mem _ he)
    have hr := (valid_iff eot r).1 (hv r (List.mem_cons_self _ _))
    have h2 := invariant_cons eot rest r h hvr
    refine List.pairwise_cons.2 ⟨fun e he => ?_, ih h2.2 hvr⟩
    have := h2.1 e he
    simp only [entry.StartTime]
    omega

theorem sweepEntries_stop (eot : Int) (ne : entry) (et : Int) (rest : List entry)
    (h : ∀ e ∈ rest, ne.start < e.start ∧ ne.end_ < e.start) :
    sweepEntries eot ne et rest = (et, rest) := by
  cases rest with
  | nil => rfl
  | cons ee rest =>
    have hee := h ee (List.mem_cons_self _ _)
    have hI : Intersect eot ee ne = .None := by
      rw [Intersect_eq]
      unfold Classify
      rw [if_pos hee.1, if_pos hee.2]
    unfold sweepEntries
    rw [hI]

theorem or_absorb_mid {N E C : Prop} (h : E → N) : (N ∨ C) ↔ (N ∨ E ∨ C) := by
  tauto

theorem or_split_left {M N E C : Prop} (h : M ↔ (N ∨ E)) : (M ∨ C) ↔ (N ∨ E ∨ C) := by
  tauto

theorem or_split_around {X R S C : Prop} (h : X ↔ (R ∨ S)) : (X ∨ C) ↔ ((R ∨ C) ∨ S) := by
  tauto

theorem or_absorb_right {R S C : Prop} (h : S → R) : (R ∨ C) ↔ ((R ∨ C) ∨ S) := by
  tauto

theorem sweepEntries_covers (eot : Int) (ne : entry) (rest : List entry) :
    (∀ e ∈ rest, Valid eot e) → Invariant eot rest → (∀ e ∈ rest, ne.start < e.start) →
      ∀ t, ((ne.start ≤ t ∧ t ≤ max ne.end_ (sweepEntries eot ne ne.end_ rest).1) ∨
              Covers eot (sweepEntries eot ne ne.end_ rest).2 t) ↔
            ((ne.start ≤ t ∧ t ≤ ne.end_) ∨ Covers eot rest t) := by
  induction rest with
  | nil => intro _ _ _ t; simp [sweepEntries]
  | cons ee rest ih =>
    intro hv hinv hs t
    have hvr : ∀ e ∈ rest, Valid eot e := fun e he => hv e (List.mem_cons_of_mem _ he)
    have hee := (valid_iff eot ee).1 (hv ee (List.mem_cons_self _ _))
    have hlt := hs ee (List.mem_cons_self _ _)
    have hsr : ∀ e ∈ rest, ne.start < e.start := fun e he => hs e (List.mem_cons_of_mem _ he)
    have hi2 := invariant_cons eot rest ee hinv hvr
    have hc := Intersect_cases eot ee ne
    unfold sweepEntries
    cases hI : Intersect eot ee ne <;> rw [hI] at hc <;> simp only [] at hc ⊢
    case None => simp
    case Same => omega
    case Within => omega
    case EndOverlap => omega
    case Cover =>
      rw [ih hvr hi2.2 hsr t, covers_cons]
      have : (ee.start ≤ t ∧ t ≤ ee.end_) → (ne.start ≤ t ∧ t ≤ ne.end_) := by omega
      exact or_absorb_mid this
    case Adjacent =>
      rw [sweepEntries_stop eot ne ee.end_ rest
        (fun e he => ⟨hsr e he, by have := hi2.1 e he; omega⟩), covers_cons]
      simp only []
      have : (ne.start ≤ t ∧ t ≤ max ne.end_ ee.end_) ↔
          ((ne.start ≤ t ∧ t ≤ ne.end_) ∨ (ee.start ≤ t ∧ t ≤ ee.end_)) := by omega
      exact or_split_left this
    case StartOverlap =>
      rw [sweepEntries_stop eot ne ee.end_ rest
        (fun e he => ⟨hsr e he, by have := hi2.1 e he; omega⟩), covers_cons]
      simp only []
      have : (ne.start ≤ t ∧ t ≤ max ne.end_ ee.end_) ↔
          ((ne.start ≤ t ∧ t ≤ ne.end_) ∨ (ee.start ≤ t ∧ t ≤ ee.end_)) := by omega
      exact or_split_left this

theorem mergeEntries_covers (eot : Int) (r c : entry) (rest : List entry)
    (hr : Valid eot r) (hc : Valid eot c) (hv : ∀ e ∈ rest, Valid eot e)
    (hinv : Invariant eot (r :: rest))
    (hI : Intersect eot r c = .Cover ∨ Intersect eot r c = .EndOverlap) (t : Int) :
    Covers eot (mergeEntries eot r c rest) t ↔
      (Covers eot (r :: rest) t ∨ (c.start ≤ t ∧ t ≤ c.end_)) := by
  have hr2 := (valid_iff eot r).1 hr
  have hc2 := (valid_iff eot c).1 hc
  have hi2 := invariant_cons eot rest r hinv hv
  have hcr := Intersect_cases eot r c
  have hsw := sweepEntries_covers eot { start := min c.start r.start, end_ := c.end_ } rest hv
    hi2.2 (fun e he => by have := hi2.1 e he; simp only []; omega) t
  simp only [] at hsw
  unfold mergeEntries
  rw [covers_cons, covers_cons]
  simp only []
  rw [hsw]
  have : (min c.start r.start ≤ t ∧ t ≤ c.end_) ↔
      ((r.start ≤ t ∧ t ≤ r.end_) ∨ (c.start ≤ t ∧ t ≤ c.end_)) := by
    rcases hI with hI | hI <;> rw [hI] at hcr <;> simp only [] at hcr <;> omega
  exact or_split_around this

theorem addEntryEntries_covers (eot : Int) (c : entry) (hc : Valid eot c) (tl : List entry) :
    (∀ e ∈ tl, Valid eot e) → Invariant eot tl →
      ∀ t, Covers eot (addEntryEntries eot c tl).1 t ↔
        (Covers eot tl t ∨ (c.start ≤ t ∧ t ≤ c.end_)) := by
  induction tl with
  | nil => intro _ _ t; simp [addEntryEntries, covers_cons, covers_nil]
  | cons r rest ih =>
    intro hv hinv t
    have hr := hv r (List.mem_cons_self _ _)
    have hvr : ∀ e ∈ rest, Valid eot e := fun e he => hv e (List.mem_cons_of_mem _ he)
    have hr2 := (valid_iff eot r).1 hr
    have hc2 := (valid_iff eot c).1 hc
    have hi2 := invariant_cons eot rest r hinv hvr
    have hcr := Intersect_cases eot r c
    unfold addEntryEntries
    cases hI : Intersect eot r c <;> rw [hI] at hcr <;> simp only [] at hcr ⊢
    case None =>
      split_ifs
      · rw [covers_cons]; exact or_comm
      · simp only []
        rw [covers_cons, covers_cons, ih hvr hi2.2 t]
        exact or_assoc.symm
    case Same =>
      rw [covers_cons]
      have : (c.start ≤ t ∧ t ≤ c.end_) → (r.start ≤ t ∧ t ≤ r.end_) := by omega
      exact or_absorb_right this
    case Within =>
      rw [covers_cons]
      have : (c.start ≤ t ∧ t ≤ c.end_) → (r.start ≤ t ∧ t ≤ r.end_) := by omega
      exact or_absorb_right this
    case Cover => exact mergeEntries_covers eot r c rest hr hc hvr hinv (Or.inl hI) t
    case EndOverlap => exact mergeEntries_covers eot r c rest hr hc hvr hinv (Or.inr hI) t
    case Adjacent =>
      rw [covers_cons, covers_cons]
      simp only []
      have : (min r.start c.start ≤ t ∧ t ≤ max r.end_ c.end_) ↔
          ((r.start ≤ t ∧ t ≤ r.end_) ∨ (c.start ≤ t ∧ t ≤ c.end_)) := by omega
      exact or_split_around this
    case StartOverlap =>
      rw [covers_cons, covers_cons]
      simp only []
      have : (c.start ≤ t ∧ t ≤ r.end_) ↔
          ((r.start ≤ t ∧ t ≤ r.end_) ∨ (c.start ≤ t ∧ t ≤ c.end_)) := by omega
      exact or_split_around this

/-! ## An interval that is already covered -/

theorem addEntryEntries_covered (eot : Int) (c : entry) (hc : Valid eot c) (tl : List entry) :
    (∀ e ∈ tl, Valid eot e) → Invariant eot tl →
      (∃ e ∈ tl, e.start ≤ c.start ∧ c.end_ ≤ e.end_) →
        addEntryEntries eot c tl = (tl, false) := by
  induction tl with
  | nil => intro _ _ h; simp at h
  | cons r rest ih =>
    intro hv hinv hex
    have hvr : ∀ e ∈ rest, Valid eot e := fun e he => hv e (List.mem_cons_of_mem _ he)
    have hr2 := (valid_iff eot r).1 (hv r (List.mem_cons_self _ _))
    have hc2 := (valid_iff eot c).1 hc
    have hi2 := invariant_cons eot rest r hinv hvr
    have hcr := Intersect_cases eot r c
    obtain ⟨e, he, hes, hee⟩ := hex
    unfold addEntryEntries
    rcases List.mem_cons.1 he with h | h
    · rw [h] at hes hee
      cases hI : Intersect eot r c <;> rw [hI] at hcr <;> simp only [] at hcr ⊢
      all_goals omega
    · have hlt := hi2.1 e h
      have hrec := ih hvr hi2.2 ⟨e, h, hes, hee⟩
      cases hI : Intersect eot r c <;> rw [hI] at hcr <;> simp only [] at hcr ⊢
      case None =>
        rw [if_neg (by omega), hrec]
      all_goals omega

/-! ## Replaying several entries -/

theorem Add_single (eot : Int) (tl : Timeline) (e : Entry) :
    Add eot tl [e] = addEntry eot tl e := by
  unfold Add addAll
  cases h : addEntry eot tl e with
  | error p => rfl
  | ok v =>
    obtain ⟨tl2, changed⟩ := v
    cases changed <;> rfl

theorem addAll_eq (eot : Int) (cs : List entry) :
    ∀ (tl : List entry) (u : Bool), (∀ c ∈ cs, Valid eot c) → (∀ e ∈ tl, Valid eot e) →
      StartsAscending tl →
        ∃ b, addAll eot (tl.map some) u (cs.map some) =
          .ok ((replayEntries eot tl cs).map some, b) := by
  induction cs with
  | nil => intro tl u _ _ _; exact ⟨u, rfl⟩
  | cons c cs ih =>
    intro tl u hcs hv hs
    have hc := hcs c (List.mem_cons_self _ _)
    simp only [List.map_cons, addAll, replayEntries, addEntry_eq eot c hc tl hv hs]
    exact ih _ _ (fun x hx => hcs x (List.mem_cons_of_mem _ hx))
      (addEntryEntries_valid eot c hc tl hv) (addEntryEntries_starts eot c tl hs)

theorem replay_eq (eot : Int) (cs : List entry) :
    ∀ (tl : List entry), (∀ c ∈ cs, Valid eot c) → (∀ e ∈ tl, Valid eot e) →
      StartsAscending tl →
        replay eot (tl.map some) (cs.map some) = .ok ((replayEntries eot tl cs).map some) := by
  induction cs with
  | nil => intro tl _ _ _; rfl
  | cons c cs ih =>
    intro tl hcs hv hs
    have hc := hcs c (List.mem_cons_self _ _)
    simp only [List.map_cons, replay, replayEntries, addEntry_eq eot c hc tl hv hs]
    exact ih _ (fun x hx => hcs x (List.mem_cons_of_mem _ hx))
      (addEntryEntries_valid eot c hc tl hv) (addEntryEntries_starts eot c tl hs)

theorem Normalize_eq (eot : Int) (cs : List entry) (hcs : ∀ c ∈ cs, Valid eot c) :
    Normalize eot (cs.map some) = .ok ((replayEntries eot [] cs).map some) := by
  unfold Normalize
  cases cs with
  | nil => rfl
  | cons c cs =>
    rw [if_pos (by simp)]
    exact replay_eq eot (c :: cs) [] hcs (by simp) List.Pairwise.nil

/-! ## The point query -/

theorem containsLoop_cons_match (eot t : Int) (x : entry) (rest : List entry)
    (h : Matches eot t x) :
    containsLoop eot t ((x :: rest).map some) = .ok (true, x.StartTime, (x.EndTime eot).1) := by
  unfold Matches entry.EndTime entry.StartTime at h
  simp only [List.map_cons, containsLoop, deref, entry.StartTime, entry.EndTime]
  rcases h with h | ⟨h1, h2⟩
  · rw [if_neg (by omega), if_pos h]
  · rw [if_neg (by omega), if_neg (by omega)]
    have : ((!(!decide (x.end_ = eot))) || !decide (t > x.end_)) = true := by
      rcases h2 with h2 | h2
      · simp only [] at h2
        rw [h2]
        rfl
      · simp only [] at h2
        have : decide (t > x.end_) = false := by simp; omega
        rw [this]
        simp
    rw [if_pos this]

theorem containsLoop_cons_skip (eot t : Int) (x : entry) (rest : List entry)
    (h : ¬ Matches eot t x) :
    containsLoop eot t ((x :: rest).map some) = containsLoop eot t (rest.map some) := by
  unfold Matches entry.EndTime entry.StartTime at h
  simp only [List.map_cons, containsLoop, deref, entry.StartTime, entry.EndTime]
  simp only [] at h
  push_neg at h
  by_cases h1 : x.start > t
  · rw [if_pos h1]
  · rw [if_neg h1, if_neg h.1]
    have h2 := h.2 (by omega)
    have : ((!(!decide (x.end_ = eot))) || !decide (t > x.end_)) = false := by
      have ha : (!decide (x.end_ = eot)) = true := by
        cases hb : (!decide (x.end_ = eot))
        · exact absurd hb h2.1
        · rfl
      have hb : decide (t > x.end_) = true := by simp; omega
      rw [ha, hb]
      rfl
    rw [this]
    simp

theorem containsLoop_spec (eot t : Int) (tl : List entry) :
    ∃ (found : Bool) (sd ed : Int),
      containsLoop eot t (tl.map some) = .ok (found, sd, ed) ∧
      (found = true ↔ ∃ e ∈ tl, Matches eot t e) ∧
      (found = true → ∃ (pre : List entry) (e : entry) (post : List entry),
        tl = pre ++ e :: post ∧ (∀ x ∈ pre, ¬ Matches eot t x) ∧ Matches eot t e ∧
        sd = e.StartTime ∧ ed = (e.EndTime eot).1) ∧
      (found = false → sd = zeroTime ∧ ed = zeroTime) := by
  induction tl with
  | nil =>
    exact ⟨false, zeroTime, zeroTime, rfl, by simp, by simp, fun _ => ⟨rfl, rfl⟩⟩
  | cons x rest ih =>
    by_cases hm : Matches eot t x
    · refine ⟨true, x.StartTime, (x.EndTime eot).1, containsLoop_cons_match eot t x rest hm,
        ?_, ?_, by simp⟩
      · exact ⟨fun _ => ⟨x, List.mem_cons_self _ _, hm⟩, fun _ => rfl⟩
      · intro _
        exact ⟨[], x, rest, rfl, by simp, hm, rfl, rfl⟩
    · obtain ⟨found, sd, ed, h1, h2, h3, h4⟩ := ih
      refine ⟨found, sd, ed, ?_, ?_, ?_, h4⟩
      · rw [containsLoop_cons_skip eot t x rest hm]
        exact h1
      · rw [h2]
        constructor
        · rintro ⟨e, he, hme⟩
          exact ⟨e, List.mem_cons_of_mem _ he, hme⟩
        · rintro ⟨e, he, hme⟩
          rcases List.mem_cons.1 he with h | h
          · rw [h] at hme; exact absurd hme hm
          · exact ⟨e, h, hme⟩
      · intro hf
        obtain ⟨pre, e, post, hsplit, hpre, hme, hsd, hed⟩ := h3 hf
        refine ⟨x :: pre, e, post, by rw [hsplit]; rfl, ?_, hme, hsd, hed⟩
        intro y hy
        rcases List.mem_cons.1 hy with h | h
        · rw [h]; exact hm
        · exact hpre y h

theorem matches_iff_matchesSpan (eot t : Int) (e : entry) (he : Valid eot e) :
    Matches eot t e ↔ MatchesSpan eot t e := by
  have he2 := (valid_iff eot e).1 he
  unfold Matches MatchesSpan entry.EndTime entry.StartTime
  simp only []
  by_cases h : e.end_ = eot
  · simp [h]
    omega
  · simp [h]
    omega

theorem matchesSpan_before (eot t : Int) (r f : entry) (hlt : r.end_ < f.start)
    (h : t ≤ eot ∨ f.start ≤ eot) (hr : MatchesSpan eot t r) (hf : MatchesSpan eot t f) :
    False := by
  unfold MatchesSpan entry.EndTime entry.StartTime at hr hf
  simp only [] at hr hf
  by_cases he : r.end_ = eot
  · rcases h with h | h <;> omega
  · have := hr.2 (by simp [he])
    omega

theorem matchesSpan_unique (eot t : Int) (tl : List entry) :
    (∀ e ∈ tl, Valid eot e) → Invariant eot tl →
      (t ≤ eot ∨ ∀ e ∈ tl, e.StartTime ≤ eot) →
        ∀ (i j : Nat) (e f : entry), tl[i]? = some e → tl[j]? = some f →
          MatchesSpan eot t e → MatchesSpan eot t f → i = j := by
  induction tl with
  | nil => intro _ _ _ i j e f hi; simp at hi
  | cons r rest ih =>
    intro hv hinv h i j e f hi hj hme hmf
    have hvr : ∀ e ∈ rest, Valid eot e := fun e he => hv e (List.mem_cons_of_mem _ he)
    have hi2 := invariant_cons eot rest r hinv hvr
    have hrest : t ≤ eot ∨ ∀ e ∈ rest, e.StartTime ≤ eot :=
      h.imp id (fun hh e he => hh e (List.mem_cons_of_mem _ he))
    have hpair : ∀ x ∈ rest, MatchesSpan eot t r → MatchesSpan eot t x → False := by
      intro x hx hmr hmx
      refine matchesSpan_before eot t r x (hi2.1 x hx) ?_ hmr hmx
      exact h.imp id (fun hh => hh x (List.mem_cons_of_mem _ hx))
    cases i with
    | zero =>
      cases j with
      | zero => rfl
      | succ j =>
        simp only [List.getElem?_cons_zero, Option.some.injEq] at hi
        simp only [List.getElem?_cons_succ] at hj
        rw [← hi] at hme
        exact (hpair f (List.getElem?_mem hj) hme hmf).elim
    | succ i =>
      cases j with
      | zero =>
        simp only [List.getElem?_cons_zero, Option.some.injEq] at hj
        simp only [List.getElem?_cons_succ] at hi
        rw [← hj] at hmf
        exact (hpair e (List.getElem?_mem hi) hmf hme).elim
      | succ j =>
        simp only [List.getElem?_cons_succ] at hi hj
        rw [ih hvr hi2.2 hrest i j e f hi hj hme hmf]

/-! ## The returned boolean -/

theorem newEntryOrNil_some (eot st et : Int) (e : entry)
    (h : newEntryOrNil eot st et = some e) :
    e.start = st ∧ (e.end_ = et ∨ (et = 0 ∧ e.end_ = eot)) := by
  unfold newEntryOrNil NewEntry zeroTime at h
  split_ifs at h with h1 h2 h3
  · simp only [Option.some.injEq] at h
    rw [← h]
    exact ⟨rfl, Or.inr ⟨h3, rfl⟩⟩
  · simp only [Option.some.injEq] at h
    rw [← h]
    exact ⟨rfl, Or.inl rfl⟩

theorem sweep_fst (eot : Int) (ne : Entry) (j : Nat) (rest : List entry) :
    ∀ (et et2 : Int) (rest2 : List Entry),
      sweep eot ne j et (rest.map some) = .ok (et2, rest2) →
        et2 = et ∨ ∃ e ∈ rest, et2 = e.end_ := by
  induction rest with
  | nil =>
    intro et et2 rest2 h
    simp only [List.map_nil, sweep, Except.ok.injEq, Prod.mk.injEq] at h
    exact Or.inl h.1.symm
  | cons ee rest ih =>
    intro et et2 rest2 h
    cases ne with
    | none => simp [sweep, deref] at h
    | some n =>
      simp only [List.map_cons, sweep, deref, entry.EndTime] at h
      cases hI : Intersect eot ee n <;> rw [hI] at h <;> simp only [] at h
      case None =>
        simp only [Except.ok.injEq, Prod.mk.injEq] at h
        exact Or.inl h.1.symm
      case Cover =>
        rcases ih et et2 rest2 h with h2 | ⟨e, he, h2⟩
        · exact Or.inl h2
        · exact Or.inr ⟨e, List.mem_cons_of_mem _ he, h2⟩
      case Adjacent =>
        rcases ih ee.end_ et2 rest2 h with h2 | ⟨e, he, h2⟩
        · exact Or.inr ⟨ee, List.mem_cons_self _ _, h2⟩
        · exact Or.inr ⟨e, List.mem_cons_of_mem _ he, h2⟩
      case StartOverlap =>
        rcases ih ee.end_ et2 rest2 h with h2 | ⟨e, he, h2⟩
        · exact Or.inr ⟨ee, List.mem_cons_self _ _, h2⟩
        · exact Or.inr ⟨e, List.mem_cons_of_mem _ he, h2⟩
      all_goals exact absurd h (by simp)

theorem mergeAt_changed (eot : Int) (r c : entry) (i : Nat) (rest : List entry)
    (hr : Valid eot r) (hc : Valid eot c) (hv : ∀ e ∈ rest, Valid eot e)
    (hI : (c.start < r.start) ∨ (r.end_ < c.end_))
    (res : List Entry) (b : Bool)
    (h : mergeAt eot r c i (rest.map some) = .ok (res, b)) :
    b = true ∧ res ≠ some r :: rest.map some := by
  have hr2 := (valid_iff eot r).1 hr
  have hc2 := (valid_iff eot c).1 hc
  have hne : newEntryOrNil eot (min c.start r.start) c.end_ =
      some { start := min c.start r.start, end_ := c.end_ } :=
    newEntryOrNil_valid eot _ _ (by omega) (by omega) hc2.2.2
  unfold mergeAt at h
  simp only [entry.StartTime, entry.EndTime, ite_eq_min, hne] at h
  cases hsw : sweep eot (some { start := min c.start r.start, end_ := c.end_ }) (i + 1) c.end_
      (rest.map some) with
  | error p => rw [hsw] at h; simp at h
  | ok v =>
    obtain ⟨et2, rest2⟩ := v
    rw [hsw] at h
    simp only [deref, Except.ok.injEq, Prod.mk.injEq] at h
    have hfst := sweep_fst eot _ (i + 1) rest c.end_ et2 rest2 hsw
    refine ⟨h.2.symm, ?_⟩
    rw [← h.1]
    intro heq
    have hhead := (List.cons.inj heq).1
    by_cases hlt : c.end_ < et2
    · rw [if_pos hlt] at hhead
      have hs := newEntryOrNil_some eot _ _ r hhead
      rcases hfst with hf | ⟨e, he, hf⟩
      · omega
      · have he2 := (valid_iff eot e).1 (hv e he)
        rcases hs with ⟨hs1, hs2 | ⟨hs2, hs3⟩⟩
        · omega
        · have := he2.2.2 (by omega)
          omega
    · rw [if_neg hlt] at hhead
      simp only [Option.some.injEq] at hhead
      have h1 := congrArg entry.start hhead
      have h2 := congrArg entry.end_ hhead
      simp only [] at h1 h2
      rcases hI with hI | hI
      · rw [min_eq_left (le_of_lt hI)] at h1
        exact absurd h1 (ne_of_lt hI)
      · exact absurd h2.symm (ne_of_lt hI)

theorem addEntryLoop_flag (eot : Int) (c : entry) (hc : Valid eot c) (tl : List entry) :
    ∀ (i : Nat), (∀ e ∈ tl, Valid eot e) → ∀ (res : List Entry) (b : Bool),
      addEntryLoop eot (some c) i (tl.map some) = .ok (res, b) →
        (b = false ↔ res = tl.map some) := by
  induction tl with
  | nil =>
    intro i _ res b h
    simp only [List.map_nil, addEntryLoop, Except.ok.injEq, Prod.mk.injEq] at h
    rw [← h.1, ← h.2]
    simp
  | cons r rest ih =>
    intro i hv res b h
    have hr := hv r (List.mem_cons_self _ _)
    have hvr : ∀ e ∈ rest, Valid eot e := fun e he => hv e (List.mem_cons_of_mem _ he)
    have hr2 := (valid_iff eot r).1 hr
    have hc2 := (valid_iff eot c).1 hc
    have hcr := Intersect_cases eot r c
    simp only [List.map_cons, addEntryLoop, deref, entry.StartTime, entry.EndTime] at h
    cases hI : Intersect eot r c <;> rw [hI] at h hcr <;> simp only [] at h hcr
    case Same =>
      simp only [Except.ok.injEq, Prod.mk.injEq] at h
      rw [← h.1, ← h.2]
      simp
    case Within =>
      simp only [Except.ok.injEq, Prod.mk.injEq] at h
      rw [← h.1, ← h.2]
      simp
    case None =>
      by_cases hlt : c.start < r.start
      · rw [if_pos hlt] at h
        simp only [Except.ok.injEq, Prod.mk.injEq] at h
        rw [← h.1, ← h.2]
        simp only [Bool.true_eq_false, false_iff]
        intro heq
        have := congrArg List.length heq
        simp at this
      · rw [if_neg hlt] at h
        cases hrec : addEntryLoop eot (some c) (i + 1) (rest.map some) with
        | error p => rw [hrec] at h; simp at h
        | ok v =>
          obtain ⟨res2, b2⟩ := v
          rw [hrec] at h
          simp only [Except.ok.injEq, Prod.mk.injEq] at h
          rw [← h.1, ← h.2, ih (i + 1) hvr res2 b2 hrec]
          simp
    case Adjacent =>
      simp only [Except.ok.injEq, Prod.mk.injEq] at h
      rw [← h.1, ← h.2]
      simp only [Bool.true_eq_false, false_iff]
      intro heq
      have hs := newEntryOrNil_some eot _ _ r (List.cons.inj heq).1
      have h1 := hs.1
      rw [ite_eq_min] at h1
      rcases hs.2 with h2 | ⟨h2, h3⟩
      · split_ifs at h2 <;> omega
      · split_ifs at h2 <;> omega
    case StartOverlap =>
      simp only [Except.ok.injEq, Prod.mk.injEq] at h
      rw [← h.1, ← h.2]
      simp only [Bool.true_eq_false, false_iff]
      intro heq
      have hs := newEntryOrNil_some eot _ _ r (List.cons.inj heq).1
      omega
    case Cover =>
      have := mergeAt_changed eot r c i rest hr hc hvr (Or.inl hcr.1) res b h
      rw [this.1]
      simp only [Bool.true_eq_false, false_iff]
      exact this.2
    case EndOverlap =>
      have := mergeAt_changed eot r c i rest hr hc hvr (Or.inr (by omega)) res b h
      rw [this.1]
      simp only [Bool.true_eq_false, false_iff]
      exact this.2

/-! ## Durations and relation text -/

theorem Duration_exact_in_range (e : entry)
    (h : minDuration ≤ e.end_ - e.start ∧ e.end_ - e.start ≤ maxDuration) :
    e.Duration = e.end_ - e.start := by
  unfold entry.Duration timeSub
  rw [if_pos h]

theorem stringTable_lookup (v : IntersectionType) :
    stringTable.lookup v.code = some (tagName v) := by
  cases v <;> rfl

theorem parseTable_lookup_name (v : IntersectionType) :
    parseTable.lookup (tagName v) = some v := by
  cases v <;> decide

theorem parseTable_lookup_other (x : String) (h : ∀ v : IntersectionType, x ≠ tagName v) :
    parseTable.lookup x = none := by
  have h0 := h .None
  have h1 := h .Same
  have h2 := h .Cover
  have h3 := h .Within
  have h4 := h .Adjacent
  have h5 := h .StartOverlap
  have h6 := h .EndOverlap
  simp only [tagName] at h0 h1 h2 h3 h4 h5 h6
  have e0 : (x == "none") = false := by simpa using h0
  have e1 : (x == "same") = false := by simpa using h1
  have e2 : (x == "cover") = false := by simpa using h2
  have e3 : (x == "within") = false := by simpa using h3
  have e4 : (x == "adjacent") = false := by simpa using h4
  have e5 : (x == "start") = false := by simpa using h5
  have e6 : (x == "end") = false := by simpa using h6
  simp only [parseTable, List.lookup, e0, e1, e2, e3, e4, e5, e6]

/-! ## Normalized timelines and replay -/

theorem invariant_pairwise (eot : Int) (tl : List entry) :
    Invariant eot tl → (∀ e ∈ tl, Valid eot e) →
      tl.Pairwise (fun a b => a.end_ < b.start) := by
  induction tl with
  | nil => intro _ _; exact List.Pairwise.nil
  | cons r rest ih =>
    intro h hv
    have hvr : ∀ e ∈ rest, Valid eot e := fun e he => hv e (List.mem_cons_of_mem _ he)
    have h2 := invariant_cons eot rest r h hvr
    exact List.pairwise_cons.2 ⟨h2.1, ih h2.2 hvr⟩

theorem invariant_of_pairwise (eot : Int) (tl : List entry) :
    tl.Pairwise (fun a b => a.end_ < b.start) → Invariant eot tl := by
  induction tl with
  | nil => intro _; trivial
  | cons r rest ih =>
    intro h
    have h2 := List.pairwise_cons.1 h
    cases rest with
    | nil => trivial
    | cons x rest =>
      refine ⟨?_, ih h2.2⟩
      rw [spanEnd_eq]
      exact h2.1 x (List.mem_cons_self _ _)

theorem addEntryEntries_append (eot : Int) (c : entry) (tl : List entry) :
    (∀ e ∈ tl, e.start < e.end_ ∧ e.end_ < c.start) →
      addEntryEntries eot c tl = (tl ++ [c], true) := by
  induction tl with
  | nil => intro _; rfl
  | cons r rest ih =>
    intro h
    have hr := h r (List.mem_cons_self _ _)
    have hI : Intersect eot r c = .None := by
      rw [Intersect_eq]
      unfold Classify
      rw [if_neg (by omega), if_pos (by omega), if_pos (by omega)]
    unfold addEntryEntries
    rw [hI]
    simp only []
    rw [if_neg (by omega), ih (fun e he => h e (List.mem_cons_of_mem _ he))]
    rfl

theorem replayEntries_normalized (eot : Int) (cs : List entry) :
    ∀ (acc : List entry), (∀ e ∈ acc ++ cs, Valid eot e) →
      (acc ++ cs).Pairwise (fun a b => a.end_ < b.start) →
        replayEntries eot acc cs = acc ++ cs := by
  induction cs with
  | nil => intro acc _ _; simp [replayEntries]
  | cons c cs ih =>
    intro acc hv hp
    have hacc : ∀ e ∈ acc, e.start < e.end_ ∧ e.end_ < c.start := by
      intro e he
      have he2 := (valid_iff eot e).1 (hv e (List.mem_append_left _ he))
      exact ⟨he2.2.1, (List.pairwise_append.1 hp).2.2 e he c (List.mem_cons_self _ _)⟩
    unfold replayEntries
    rw [addEntryEntries_append eot c acc hacc]
    simp only []
    have hassoc : (acc ++ [c]) ++ cs = acc ++ c :: cs := by simp
    rw [ih (acc ++ [c]) (by rw [hassoc]; exact hv) (by rw [hassoc]; exact hp), hassoc]

theorem replayEntries_valid (eot : Int) (cs : List entry) :
    ∀ (acc : List entry), (∀ c ∈ cs, Valid eot c) → (∀ e ∈ acc, Valid eot e) →
      ∀ e ∈ replayEntries eot acc cs, Valid eot e := by
  induction cs with
  | nil => intro acc _ hv; exact hv
  | cons c cs ih =>
    intro acc hcs hv
    unfold replayEntries
    exact ih _ (fun x hx => hcs x (List.mem_cons_of_mem _ hx))
      (addEntryEntries_valid eot c (hcs c (List.mem_cons_self _ _)) acc hv)

theorem replayEntries_starts (eot : Int) (cs : List entry) :
    ∀ (acc : List entry), StartsAscending acc → StartsAscending (replayEntries eot acc cs) := by
  induction cs with
  | nil => intro acc hs; exact hs
  | cons c cs ih =>
    intro acc hs
    unfold replayEntries
    exact ih _ (addEntryEntries_starts eot c acc hs)

theorem addEntryEntries_holds_candidate (eot : Int) (c : entry) (tl : List entry) :
    ∃ e ∈ (addEntryEntries eot c tl).1, e.start ≤ c.start ∧ c.end_ ≤ e.end_ := by
  induction tl with
  | nil => exact ⟨c, by simp [addEntryEntries], le_refl _, le_refl _⟩
  | cons r rest ih =>
    have hcr := Intersect_cases eot r c
    unfold addEntryEntries
    cases hI : Intersect eot r c <;> rw [hI] at hcr <;> simp only [] at hcr ⊢
    case None =>
      split_ifs
      · exact ⟨c, List.mem_cons_self _ _, le_refl _, le_refl _⟩
      · obtain ⟨e, he, h1, h2⟩ := ih
        exact ⟨e, List.mem_cons_of_mem _ he, h1, h2⟩
    case Same => exact ⟨r, List.mem_cons_self _ _, by omega, by omega⟩
    case Within => exact ⟨r, List.mem_cons_self _ _, by omega, by omega⟩
    case Adjacent =>
      exact ⟨_, List.mem_cons_self _ _, min_le_right _ _, le_max_right _ _⟩
    case StartOverlap =>
      exact ⟨_, List.mem_cons_self _ _, le_refl _, hcr.2.2⟩
    case Cover =>
      exact ⟨_, List.mem_cons_self _ _, min_le_left _ _, le_max_left _ _⟩
    case EndOverlap =>
      exact ⟨_, List.mem_cons_self _ _, min_le_left _ _, le_max_left _ _⟩

/-! ## Collapsing several entries into one -/

theorem mergedEnd_nil (eot : Int) (c : entry) : mergedEnd eot c [] = c.end_ := by
  simp [mergedEnd, spanEnd_eq]

theorem mergedEnd_singleton (eot : Int) (c e : entry) :
    mergedEnd eot c [e] = max c.end_ e.end_ := by
  simp [mergedEnd, spanEnd_eq]

theorem mergedEnd_cons_cons (eot : Int) (c a b : entry) (l : List entry) :
    mergedEnd eot c (a :: b :: l) = mergedEnd eot c (b :: l) := by
  simp [mergedEnd]

theorem absorbedAfter_cons_pos (eot : Int) (c e : entry) (rest : List entry)
    (h : e.start ≤ c.end_) :
    absorbedAfter eot c (e :: rest) = e :: absorbedAfter eot c rest := by
  unfold absorbedAfter
  rw [List.filter_cons_of_pos]
  simpa [entry.StartTime, spanEnd_eq] using h

theorem absorbedAfter_cons_neg (eot : Int) (c e : entry) (rest : List entry)
    (h : c.end_ < e.start) :
    absorbedAfter eot c (e :: rest) = absorbedAfter eot c rest := by
  unfold absorbedAfter
  rw [List.filter_cons_of_neg]
  simpa [entry.StartTime, spanEnd_eq] using h

theorem keptAfter_cons_pos (eot : Int) (c e : entry) (rest : List entry)
    (h : c.end_ < e.start) :
    keptAfter eot c (e :: rest) = e :: keptAfter eot c rest := by
  unfold keptAfter
  rw [List.filter_cons_of_pos]
  simpa [entry.StartTime, spanEnd_eq] using h

theorem keptAfter_cons_neg (eot : Int) (c e : entry) (rest : List entry)
    (h : e.start ≤ c.end_) :
    keptAfter eot c (e :: rest) = keptAfter eot c rest := by
  unfold keptAfter
  rw [List.filter_cons_of_neg]
  simpa [entry.StartTime, spanEnd_eq] using h

theorem absorbedAfter_none (eot : Int) (c : entry) (rest : List entry)
    (h : ∀ e ∈ rest, c.end_ < e.start) : absorbedAfter eot c rest = [] := by
  unfold absorbedAfter
  rw [List.filter_eq_nil_iff]
  intro e he
  have := h e he
  simpa [entry.StartTime, spanEnd_eq] using this

theorem keptAfter_all (eot : Int) (c : entry) (rest : List entry)
    (h : ∀ e ∈ rest, c.end_ < e.start) : keptAfter eot c rest = rest := by
  unfold keptAfter
  rw [List.filter_eq_self]
  intro e he
  have := h e he
  simpa [entry.StartTime, spanEnd_eq] using this

theorem sweepEntries_spec (eot st : Int) (c : entry) (rest : List entry) :
    (∀ e ∈ rest, Valid eot e) → rest.Pairwise (fun a b => a.end_ < b.start) →
      (∀ e ∈ rest, st < e.start) →
        (sweepEntries eot { start := st, end_ := c.end_ } c.end_ rest).2 =
            keptAfter eot c rest ∧
        max c.end_ (sweepEntries eot { start := st, end_ := c.end_ } c.end_ rest).1 =
            mergedEnd eot c (absorbedAfter eot c rest) ∧
        ∀ k ∈ (sweepEntries eot { start := st, end_ := c.end_ } c.end_ rest).2,
          max c.end_ (sweepEntries eot { start := st, end_ := c.end_ } c.end_ rest).1 <
            k.start := by
  induction rest with
  | nil =>
    intro _ _ _
    refine ⟨rfl, ?_, by simp [sweepEntries]⟩
    simp [sweepEntries, absorbedAfter, mergedEnd_nil]
  | cons ee rest ih =>
    intro hv hp hs
    have hvr : ∀ e ∈ rest, Valid eot e := fun e he => hv e (List.mem_cons_of_mem _ he)
    have hee := (valid_iff eot ee).1 (hv ee (List.mem_cons_self _ _))
    have hlt := hs ee (List.mem_cons_self _ _)
    have hsr : ∀ e ∈ rest, st < e.start := fun e he => hs e (List.mem_cons_of_mem _ he)
    have hp2 := List.pairwise_cons.1 hp
    have hc := Intersect_cases eot ee { start := st, end_ := c.end_ }
    have hih := ih hvr hp2.2 hsr
    unfold sweepEntries
    cases hI : Intersect eot ee { start := st, end_ := c.end_ } <;> rw [hI] at hc <;>
      simp only [] at hc ⊢
    case Same => omega
    case Within => omega
    case EndOverlap => omega
    case None =>
      have hall : ∀ e ∈ ee :: rest, c.end_ < e.start := by
        intro e he
        rcases List.mem_cons.1 he with h | h
        · rw [h]; omega
        · have := hp2.1 e h; omega
      rw [keptAfter_all eot c (ee :: rest) hall, absorbedAfter_none eot c (ee :: rest) hall,
        mergedEnd_nil, max_self]
      exact ⟨rfl, rfl, hall⟩
    case Cover =>
      rw [keptAfter_cons_neg eot c ee rest (by omega),
        absorbedAfter_cons_pos eot c ee rest (by omega)]
      refine ⟨hih.1, ?_, hih.2.2⟩
      rw [hih.2.1]
      cases hab : absorbedAfter eot c rest with
      | nil => rw [mergedEnd_nil, mergedEnd_singleton]; omega
      | cons x xs => rw [mergedEnd_cons_cons]
    case Adjacent =>
      have hall : ∀ e ∈ rest, c.end_ < e.start := by
        intro e he
        have := hp2.1 e he; omega
      rw [sweepEntries_stop eot { start := st, end_ := c.end_ } ee.end_ rest
          (fun e he => ⟨hsr e he, hall e he⟩),
        keptAfter_cons_neg eot c ee rest (by omega),
        absorbedAfter_cons_pos eot c ee rest (by omega),
        keptAfter_all eot c rest hall, absorbedAfter_none eot c rest hall,
        mergedEnd_singleton]
      refine ⟨rfl, rfl, ?_⟩
      intro k hk
      have := hp2.1 k hk
      simp only []
      omega
    case StartOverlap =>
      have hall : ∀ e ∈ rest, c.end_ < e.start := by
        intro e he
        have := hp2.1 e he; omega
      rw [sweepEntries_stop eot { start := st, end_ := c.end_ } ee.end_ rest
          (fun e he => ⟨hsr e he, hall e he⟩),
        keptAfter_cons_neg eot c ee rest (by omega),
        absorbedAfter_cons_pos eot c ee rest (by omega),
        keptAfter_all eot c rest hall, absorbedAfter_none eot c rest hall,
        mergedEnd_singleton]
      refine ⟨rfl, rfl, ?_⟩
      intro k hk
      have := hp2.1 k hk
      simp only []
      omega

theorem mergeEntries_spec (eot : Int) (r c : entry) (rest : List entry)
    (hr : Valid eot r) (hv : ∀ e ∈ rest, Valid eot e)
    (hp : (r :: rest).Pairwise (fun a b => a.end_ < b.start)) :
    mergeEntries eot r c rest = mergedEntry eot r c rest :: keptAfter eot c rest ∧
    ∀ k ∈ keptAfter eot c rest, (mergedEntry eot r c rest).end_ < k.start := by
  have hp2 := List.pairwise_cons.1 hp
  have hr2 := (valid_iff eot r).1 hr
  have hsw := sweepEntries_spec eot (min c.start r.start) c rest hv hp2.2
    (fun e he => by
      have := hp2.1 e he
      omega)
  unfold mergeEntries mergedEntry
  simp only [entry.StartTime]
  rw [hsw.1, hsw.2.1, min_comm]
  refine ⟨rfl, fun k hk => ?_⟩
  have := hsw.2.2 k (by rw [hsw.1]; exact hk)
  rw [hsw.2.1] at this
  exact this

theorem before_merge_position (eot : Int) (p r c : entry) (hp : Valid eot p)
    (hc : Valid eot c) (hlt : p.end_ < r.start) (hnone : Intersect eot p c = .None)
    (hI : Intersect eot r c = .Cover ∨ Intersect eot r c = .EndOverlap) :
    p.start < c.start ∧ p.end_ < c.start := by
  have hp2 := (valid_iff eot p).1 hp
  have hc2 := (valid_iff eot c).1 hc
  have h1 := Intersect_cases eot p c
  have h2 := Intersect_cases eot r c
  rw [hnone] at h1
  simp only [] at h1
  rcases hI with hI | hI <;> rw [hI] at h2 <;> simp only [] at h2 <;> omega

theorem addEntryEntries_collapse (eot : Int) (r c : entry) (rest : List entry)
    (hc : Valid eot c)
    (hI : Intersect eot r c = .Cover ∨ Intersect eot r c = .EndOverlap) :
    ∀ (pre : List entry), (∀ e ∈ pre ++ r :: rest, Valid eot e) →
      (pre ++ r :: rest).Pairwise (fun a b => a.end_ < b.start) →
      (∀ p ∈ pre, Intersect eot p c = .None) →
        addEntryEntries eot c (pre ++ r :: rest) =
          (pre ++ mergedEntry eot r c rest :: keptAfter eot c rest, true) := by
  intro pre
  induction pre with
  | nil =>
    intro hv hp _
    have hr := hv r (by simp)
    have hvr : ∀ e ∈ rest, Valid eot e := fun e he => hv e (by simp [he])
    simp only [List.nil_append] at hp ⊢
    unfold addEntryEntries
    rcases hI with hI | hI <;> rw [hI] <;> simp only [] <;>
      rw [(mergeEntries_spec eot r c rest hr hvr hp).1]
  | cons p pre ih =>
    intro hv hp hpre
    have hpv := hv p (by simp)
    have hp2 := List.pairwise_cons.1 hp
    have hnone := hpre p (List.mem_cons_self _ _)
    have hbefore := before_merge_position eot p r c hpv hc (hp2.1 r (by simp)) hnone hI
    have hrec := ih (fun e he => hv e (List.mem_cons_of_mem _ he)) hp2.2
      (fun x hx => hpre x (List.mem_cons_of_mem _ hx))
    simp only [List.cons_append] at hrec ⊢
    unfold addEntryEntries
    rw [hnone]
    simp only []
    rw [if_neg (by omega), hrec]

/-! ## The claims -/

/-- C1, evaluated on the code: on the timeline `[1..2], [4..5]` (valid entries, each end
strictly before the next start) `Add` of the valid interval `[2..10]` takes the `Adjacent`
case at the first entry, replaces it by `[1..10]` and returns without sweeping the later
entries, so the result `[1..10], [4..5]` has an entry whose end is not before the next
entry's start. -/
theorem Add_adjacent_breaks_invariant :
    (∀ e ∈ [({ start := 1, end_ := 2 } : entry), { start := 4, end_ := 5 }], Valid 10000 e) ∧
    Invariant 10000 [{ start := 1, end_ := 2 }, { start := 4, end_ := 5 }] ∧
    Valid 10000 { start := 2, end_ := 10 } ∧
    Add 10000 [some { start := 1, end_ := 2 }, some { start := 4, end_ := 5 }]
        [some { start := 2, end_ := 10 }] =
      .ok ([some { start := 1, end_ := 10 }, some { start := 4, end_ := 5 }], true) ∧
    ¬ Invariant 10000 [{ start := 1, end_ := 10 }, { start := 4, end_ := 5 }] := by
  decide

/-- C2: on a timeline of valid intervals that satisfies the invariant, `Add` of a valid
candidate `c` returns normally with a timeline of non-nil entries, and an instant lies in
the closed span of an entry of the result if and only if it lay in the span of an entry
before the call or in the span of `c`. -/
theorem Add_covers_union (eot : Int) (tl : List entry) (c : entry)
    (hv : ∀ e ∈ tl, Valid eot e) (hinv : Invariant eot tl) (hc : Valid eot c) :
    ∃ (res : List entry) (changed : Bool),
      Add eot (tl.map some) [some c] = .ok (res.map some, changed) ∧
      ∀ t : Int, Covers eot res t ↔
        (Covers eot tl t ∨ (c.StartTime ≤ t ∧ t ≤ c.spanEnd eot)) := by
  refine ⟨(addEntryEntries eot c tl).1, (addEntryEntries eot c tl).2, ?_, ?_⟩
  · rw [Add_single]
    exact addEntry_eq eot c hc tl hv (invariant_starts eot tl hinv hv)
  · intro t
    rw [spanEnd_eq]
    exact addEntryEntries_covers eot c hc tl hv hinv t

/-- Witness for C2: the timeline `[1..2], [4..5]` and the candidate `[2..10]`. -/
theorem Add_covers_union_witness :
    (∀ e ∈ [({ start := 1, end_ := 2 } : entry), { start := 4, end_ := 5 }], Valid 10000 e) ∧
    Invariant 10000 [{ start := 1, end_ := 2 }, { start := 4, end_ := 5 }] ∧
    Valid 10000 { start := 2, end_ := 10 } ∧
    ∃ (res : List entry) (changed : Bool),
      Add 10000 ([({ start := 1, end_ := 2 } : entry), { start := 4, end_ := 5 }].map some)
          [some { start := 2, end_ := 10 }] = .ok (res.map some, changed) ∧
      ∀ t : Int, Covers 10000 res t ↔
        (Covers 10000 [{ start := 1, end_ := 2 }, { start := 4, end_ := 5 }] t ∨
          (entry.StartTime { start := 2, end_ := 10 } ≤ t ∧
            t ≤ entry.spanEnd 10000 { start := 2, end_ := 10 })) :=
  ⟨by decide, by decide, by decide,
    Add_covers_union 10000 [{ start := 1, end_ := 2 }, { start := 4, end_ := 5 }]
      { start := 2, end_ := 10 } (by decide) (by decide) (by decide)⟩

/-- C3, evaluated on the code: `Normalize` of the valid intervals `[1..2], [4..5], [2..10]`
returns `[1..10], [4..5]`, whose first entry does not end before the second one starts. -/
theorem Normalize_breaks_invariant :
    (∀ e ∈ [({ start := 1, end_ := 2 } : entry), { start := 4, end_ := 5 },
        { start := 2, end_ := 10 }], Valid 10000 e) ∧
    Normalize 10000 [some { start := 1, end_ := 2 }, some { start := 4, end_ := 5 },
        some { start := 2, end_ := 10 }] =
      .ok [some { start := 1, end_ := 10 }, some { start := 4, end_ := 5 }] ∧
    ¬ Invariant 10000 [{ start := 1, end_ := 10 }, { start := 4, end_ := 5 }] := by
  decide

/-- C4, evaluated on the code: `Normalize` of `[1..2], [4..5], [2..10]` returns
`[1..10], [4..5]`, while `Normalize` of the permutation `[2..10], [1..2], [4..5]` returns
`[1..10]`. -/
theorem Normalize_depends_on_order :
    List.Perm [({ start := 1, end_ := 2 } : entry), { start := 4, end_ := 5 },
        { start := 2, end_ := 10 }]
      [{ start := 2, end_ := 10 }, { start := 1, end_ := 2 }, { start := 4, end_ := 5 }] ∧
    (∀ e ∈ [({ start := 1, end_ := 2 } : entry), { start := 4, end_ := 5 },
        { start := 2, end_ := 10 }], Valid 10000 e) ∧
    Normalize 10000 [some { start := 1, end_ := 2 }, some { start := 4, end_ := 5 },
        some { start := 2, end_ := 10 }] =
      .ok [some { start := 1, end_ := 10 }, some { start := 4, end_ := 5 }] ∧
    Normalize 10000 [some { start := 2, end_ := 10 }, some { start := 1, end_ := 2 },
        some { start := 4, end_ := 5 }] =
      .ok [some { start := 1, end_ := 10 }] := by
  decide

/-- C5, evaluated on the code: `Normalize` of the valid intervals
`[10..20], [40..50], [20..100], [1..2], [1..45]` returns the single entry `[1..50]`; the
instant `60` lay in the span of `[20..100]` and lies in no span of the result. -/
theorem Normalize_loses_coverage :
    (∀ e ∈ [({ start := 10, end_ := 20 } : entry), { start := 40, end_ := 50 },
        { start := 20, end_ := 100 }, { start := 1, end_ := 2 }, { start := 1, end_ := 45 }],
      Valid 10000 e) ∧
    Normalize 10000 [some { start := 10, end_ := 20 }, some { start := 40, end_ := 50 },
        some { start := 20, end_ := 100 }, some { start := 1, end_ := 2 },
        some { start := 1, end_ := 45 }] =
      .ok [some { start := 1, end_ := 50 }] ∧
    Covers 10000 [{ start := 10, end_ := 20 }, { start := 40, end_ := 50 },
        { start := 20, end_ := 100 }, { start := 1, end_ := 2 }, { start := 1, end_ := 45 }] 60 ∧
    ¬ Covers 10000 [{ start := 1, end_ := 50 }] 60 := by
  refine ⟨by decide, by decide, ?_, ?_⟩
  · exact ⟨{ start := 20, end_ := 100 }, by decide, by decide, by decide⟩
  · rintro ⟨e, he, h1, h2⟩
    rw [List.mem_singleton] at he
    rw [he] at h2
    revert h2
    decide

/-- C6: on a timeline of valid intervals that satisfies the invariant, `Add` of a valid
candidate whose span lies inside the span of an existing entry returns `false` and leaves
the sequence as it was. -/
theorem Add_covered_unchanged (eot : Int) (tl : List entry) (c : entry)
    (hv : ∀ e ∈ tl, Valid eot e) (hinv : Invariant eot tl) (hc : Valid eot c)
    (hcov : ∃ e ∈ tl, e.StartTime ≤ c.StartTime ∧ c.spanEnd eot ≤ e.spanEnd eot) :
    Add eot (tl.map some) [some c] = .ok (tl.map some, false) := by
  rw [Add_single, addEntry_eq eot c hc tl hv (invariant_starts eot tl hinv hv)]
  have hcov2 : ∃ e ∈ tl, e.start ≤ c.start ∧ c.end_ ≤ e.end_ := by
    obtain ⟨e, he, h1, h2⟩ := hcov
    rw [spanEnd_eq, spanEnd_eq] at h2
    exact ⟨e, he, h1, h2⟩
  rw [addEntryEntries_covered eot c hc tl hv hinv hcov2]

/-- Witness for C6: the timeline `[1..2], [4..9]` and the candidate `[5..9]`. -/
theorem Add_covered_unchanged_witness :
    (∀ e ∈ [({ start := 1, end_ := 2 } : entry), { start := 4, end_ := 9 }], Valid 10000 e) ∧
    Invariant 10000 [{ start := 1, end_ := 2 }, { start := 4, end_ := 9 }] ∧
    Valid 10000 { start := 5, end_ := 9 } ∧
    Add 10000 ([({ start := 1, end_ := 2 } : entry), { start := 4, end_ := 9 }].map some)
        [some { start := 5, end_ := 9 }] =
      .ok ([({ start := 1, end_ := 2 } : entry), { start := 4, end_ := 9 }].map some, false) :=
  ⟨by decide, by decide, by decide,
    Add_covered_unchanged 10000 [{ start := 1, end_ := 2 }, { start := 4, end_ := 9 }]
      { start := 5, end_ := 9 } (by decide) (by decide) (by decide)
      ⟨{ start := 4, end_ := 9 }, by decide, by decide, by decide⟩⟩

/-- C7: applying any sequence of valid intervals by `Add` to the empty timeline, or
running `Normalize` on it, returns normally: no call panics, so the sweep never meets
`Same`, `Within` or `EndOverlap`; both return the same timeline of non-nil entries. -/
theorem Add_from_empty_never_panics (eot : Int) (cs : List entry)
    (hcs : ∀ c ∈ cs, Valid eot c) :
    ∃ (res : List entry) (changed : Bool),
      Add eot [] (cs.map some) = .ok (res.map some, changed) ∧
      Normalize eot (cs.map some) = .ok (res.map some) := by
  obtain ⟨b, hb⟩ := addAll_eq eot cs [] false hcs (by simp) List.Pairwise.nil
  exact ⟨replayEntries eot [] cs, b, hb, Normalize_eq eot cs hcs⟩

/-- Witness for C7: the intervals `[10..20], [40..50], [20..100], [1..2], [1..45]`. -/
theorem Add_from_empty_never_panics_witness :
    (∀ c ∈ [({ start := 10, end_ := 20 } : entry), { start := 40, end_ := 50 },
        { start := 20, end_ := 100 }, { start := 1, end_ := 2 }, { start := 1, end_ := 45 }],
      Valid 10000 c) ∧
    ∃ (res : List entry) (changed : Bool),
      Add 10000 [] ([({ start := 10, end_ := 20 } : entry), { start := 40, end_ := 50 },
        { start := 20, end_ := 100 }, { start := 1, end_ := 2 },
        { start := 1, end_ := 45 }].map some) = .ok (res.map some, changed) ∧
      Normalize 10000 ([({ start := 10, end_ := 20 } : entry), { start := 40, end_ := 50 },
        { start := 20, end_ := 100 }, { start := 1, end_ := 2 },
        { start := 1, end_ := 45 }].map some) = .ok (res.map some) :=
  ⟨by decide,
    Add_from_empty_never_panics 10000 [{ start := 10, end_ := 20 }, { start := 40, end_ := 50 },
      { start := 20, end_ := 100 }, { start := 1, end_ := 2 }, { start := 1, end_ := 45 }]
      (by decide)⟩

/-- C8: `Intersect` returns what the decision table of the specification gives on the
reference bounds and the candidate bounds, open ends replaced by the sentinel. -/
theorem Intersect_is_decision_table (eot : Int) (refEntry newEntry : entry) :
    Intersect eot refEntry newEntry =
      Classify refEntry.StartTime (refEntry.spanEnd eot) newEntry.StartTime
        (newEntry.spanEnd eot) := by
  rw [spanEnd_eq, spanEnd_eq]
  exact Intersect_eq eot refEntry newEntry

/-- C9: for a valid reference and a valid candidate, `Intersect` returns `Same` or
`Within` if and only if the candidate's span is contained in the reference's span. -/
theorem Intersect_same_or_within_iff (eot : Int) (refEntry newEntry : entry)
    (hr : Valid eot refEntry) (hn : Valid eot newEntry) :
    (Intersect eot refEntry newEntry = .Same ∨ Intersect eot refEntry newEntry = .Within) ↔
      (refEntry.StartTime ≤ newEntry.StartTime ∧
        newEntry.spanEnd eot ≤ refEntry.spanEnd eot) := by
  have hr2 := (valid_iff eot refEntry).1 hr
  have hn2 := (valid_iff eot newEntry).1 hn
  have hc := Intersect_cases eot refEntry newEntry
  rw [spanEnd_eq, spanEnd_eq]
  simp only [entry.StartTime]
  cases hI : Intersect eot refEntry newEntry <;> rw [hI] at hc <;> simp only [] at hc <;>
    simp <;> omega

/-- Witness for C9: the reference `[1..10]` and the candidate `[3..10]`. -/
theorem Intersect_same_or_within_iff_witness :
    Valid 10000 { start := 1, end_ := 10 } ∧ Valid 10000 { start := 3, end_ := 10 } ∧
    ((Intersect 10000 { start := 1, end_ := 10 } { start := 3, end_ := 10 } = .Same ∨
        Intersect 10000 { start := 1, end_ := 10 } { start := 3, end_ := 10 } = .Within) ↔
      (entry.StartTime { start := 1, end_ := 10 } ≤ entry.StartTime { start := 3, end_ := 10 } ∧
        entry.spanEnd 10000 { start := 3, end_ := 10 } ≤
          entry.spanEnd 10000 { start := 1, end_ := 10 })) :=
  ⟨by decide, by decide,
    Intersect_same_or_within_iff 10000 { start := 1, end_ := 10 } { start := 3, end_ := 10 }
      (by decide) (by decide)⟩

/-- C10: `Intersect` returns `Same` exactly when the two entries have equal starts and
equal ends (open ends taken as the sentinel); hence it returns `Same` in one direction
exactly when it does in the other. -/
theorem Intersect_same_iff (eot : Int) (a b : entry) :
    (Intersect eot a b = .Same ↔
      (a.StartTime = b.StartTime ∧ a.spanEnd eot = b.spanEnd eot)) ∧
    (Intersect eot a b = .Same ↔ Intersect eot b a = .Same) := by
  have key : ∀ x y : entry, Intersect eot x y = .Same ↔ (x.start = y.start ∧ x.end_ = y.end_) := by
    intro x y
    rw [Intersect_eq]
    unfold Classify
    split_ifs <;> simp <;> omega
  rw [spanEnd_eq, spanEnd_eq]
  simp only [entry.StartTime]
  refine ⟨key a b, ?_⟩
  rw [key a b, key b a]
  constructor <;> rintro ⟨h1, h2⟩ <;> exact ⟨h1.symm, h2.symm⟩

/-- C11: on every timeline of non-nil entries and every instant `t`, `Contains` returns
normally; it reports found exactly when `t` is not the zero instant and some entry
matches (start equal to `t`, or start before `t` and no end or `t` at or before the end);
when found, the returned start and end are those of the first matching entry in sequence
order; when not found, both returned instants are the zero instant. -/
theorem Contains_first_match (eot : Int) (tl : List entry) (t : Int) :
    ∃ (found : Bool) (sd ed : Int),
      Contains eot (tl.map some) t = .ok (found, sd, ed) ∧
      (found = true ↔ (t ≠ zeroTime ∧ ∃ e ∈ tl, Matches eot t e)) ∧
      (found = true → ∃ (pre : List entry) (e : entry) (post : List entry),
        tl = pre ++ e :: post ∧ (∀ x ∈ pre, ¬ Matches eot t x) ∧ Matches eot t e ∧
        sd = e.StartTime ∧ ed = (e.EndTime eot).1) ∧
      (found = false → sd = zeroTime ∧ ed = zeroTime) := by
  unfold Contains
  by_cases ht : t = zeroTime
  · rw [if_pos ht]
    exact ⟨false, zeroTime, zeroTime, rfl, by simp [ht], by simp, fun _ => ⟨rfl, rfl⟩⟩
  · rw [if_neg ht]
    obtain ⟨found, sd, ed, h1, h2, h3, h4⟩ := containsLoop_spec eot t tl
    exact ⟨found, sd, ed, h1, by rw [h2]; simp [ht], h3, h4⟩

/-- C12, the claim as stated fails: with the sentinel at `100`, the timeline
`[1..100], [200..300]` consists of valid entries and satisfies the invariant, the first
entry has no end (its end is the sentinel), and the set instant `250` satisfies the match
condition of both entries. -/
theorem Contains_match_not_unique :
    (∀ e ∈ [({ start := 1, end_ := 100 } : entry), { start := 200, end_ := 300 }],
      Valid 100 e) ∧
    Invariant 100 [{ start := 1, end_ := 100 }, { start := 200, end_ := 300 }] ∧
    (250 : Int) ≠ zeroTime ∧
    ¬ (∀ (i j : Nat) (e f : entry),
        [({ start := 1, end_ := 100 } : entry), { start := 200, end_ := 300 }][i]? = some e →
        [({ start := 1, end_ := 100 } : entry), { start := 200, end_ := 300 }][j]? = some f →
        MatchesSpan 100 250 e → MatchesSpan 100 250 f → i = j) := by
  refine ⟨by decide, by decide, by decide, fun h => ?_⟩
  have := h 0 1 { start := 1, end_ := 100 } { start := 200, end_ := 300 } rfl rfl
    (by decide) (by decide)
  exact absurd this (by decide)

/-- C12, amended: on a timeline of valid intervals that satisfies the invariant, for a set
instant `t` that is not after the sentinel, or when no entry starts after the sentinel, at
most one position of the timeline holds an entry that satisfies the match condition. -/
theorem Contains_match_unique (eot : Int) (tl : List entry) (t : Int)
    (hv : ∀ e ∈ tl, Valid eot e) (hinv : Invariant eot tl) (ht : t ≠ zeroTime)
    (h : t ≤ eot ∨ ∀ e ∈ tl, e.StartTime ≤ eot) :
    ∀ (i j : Nat) (e f : entry), tl[i]? = some e → tl[j]? = some f →
      MatchesSpan eot t e → MatchesSpan eot t f → i = j := by
  have _ := ht
  exact matchesSpan_unique eot t tl hv hinv h

/-- Witness for the amended C12: sentinel `1000`, the timeline `[1..2], [4..1000]` and the
instant `5`. -/
theorem Contains_match_unique_witness :
    (∀ e ∈ [({ start := 1, end_ := 2 } : entry), { start := 4, end_ := 1000 }],
      Valid 1000 e) ∧
    Invariant 1000 [{ start := 1, end_ := 2 }, { start := 4, end_ := 1000 }] ∧
    (5 : Int) ≠ zeroTime ∧
    ((5 : Int) ≤ 1000 ∨
      ∀ e ∈ [({ start := 1, end_ := 2 } : entry), { start := 4, end_ := 1000 }],
        e.StartTime ≤ 1000) ∧
    ∀ (i j : Nat) (e f : entry),
      [({ start := 1, end_ := 2 } : entry), { start := 4, end_ := 1000 }][i]? = some e →
      [({ start := 1, end_ := 2 } : entry), { start := 4, end_ := 1000 }][j]? = some f →
      MatchesSpan 1000 5 e → MatchesSpan 1000 5 f → i = j :=
  ⟨by decide, by decide, by decide, Or.inl (by decide),
    Contains_match_unique 1000 [{ start := 1, end_ := 2 }, { start := 4, end_ := 1000 }] 5
      (by decide) (by decide) (by decide) (Or.inl (by decide))⟩

/-- C13, the claim as stated fails: on the timeline `[5..10], [3..8]` of valid intervals
`Add` of the valid interval `[4..20]` returns no boolean: the first entry is covered, the
sweep classifies `[3..8]` against the merged span `[4..20]` as `EndOverlap` and panics. -/
theorem Add_unsorted_returns_no_boolean :
    (∀ e ∈ [({ start := 5, end_ := 10 } : entry), { start := 3, end_ := 8 }],
      Valid 10000 e) ∧
    Valid 10000 { start := 4, end_ := 20 } ∧
    Add 10000 ([({ start := 5, end_ := 10 } : entry), { start := 3, end_ := 8 }].map some)
        [some { start := 4, end_ := 20 }] =
      .error (.unexpectedIntersection .EndOverlap 1) ∧
    ¬ ∃ (res : Timeline) (changed : Bool),
      Add 10000 ([({ start := 5, end_ := 10 } : entry), { start := 3, end_ := 8 }].map some)
          [some { start := 4, end_ := 20 }] = .ok (res, changed) ∧
      (changed = false ↔
        res = [({ start := 5, end_ := 10 } : entry), { start := 3, end_ := 8 }].map some) := by
  have hrun : Add 10000
      ([({ start := 5, end_ := 10 } : entry), { start := 3, end_ := 8 }].map some)
      [some { start := 4, end_ := 20 }] = .error (.unexpectedIntersection .EndOverlap 1) := by
    decide
  refine ⟨by decide, by decide, hrun, ?_⟩
  rintro ⟨res, changed, h, _⟩
  rw [hrun] at h
  exact absurd h (by simp)

/-- C13, amended: on a timeline of valid intervals, whenever `Add` of a valid candidate
returns (rather than panicking in the sweep), the boolean it returns is `false` if and
only if the returned sequence is identical to the sequence before the call; and `Add`
does return whenever the start times of the timeline are strictly ascending. -/
theorem Add_flag_iff_unchanged (eot : Int) (tl : List entry) (c : entry)
    (hv : ∀ e ∈ tl, Valid eot e) (hc : Valid eot c) :
    (∀ (res : Timeline) (changed : Bool),
      Add eot (tl.map some) [some c] = .ok (res, changed) →
        (changed = false ↔ res = tl.map some)) ∧
    (StartsAscending tl →
      ∃ (res : Timeline) (changed : Bool),
        Add eot (tl.map some) [some c] = .ok (res, changed)) := by
  constructor
  · intro res changed h
    rw [Add_single] at h
    unfold addEntry at h
    cases tl with
    | nil =>
      simp only [List.map_nil, List.length_nil, if_true, List.nil_append, Except.ok.injEq,
        Prod.mk.injEq] at h
      rw [← h.1, ← h.2]
      simp
    | cons r rest =>
      rw [if_neg (by simp)] at h
      exact addEntryLoop_flag eot c hc (r :: rest) 0 hv res changed h
  · intro hs
    rw [Add_single, addEntry_eq eot c hc tl hv hs]
    exact ⟨_, _, rfl⟩

/-- Witness for the amended C13: the timeline `[1..2], [4..5]` and the candidate
`[2..10]`. -/
theorem Add_flag_iff_unchanged_witness :
    (∀ e ∈ [({ start := 1, end_ := 2 } : entry), { start := 4, end_ := 5 }], Valid 10000 e) ∧
    Valid 10000 { start := 2, end_ := 10 } ∧
    (∀ (res : Timeline) (changed : Bool),
      Add 10000 ([({ start := 1, end_ := 2 } : entry), { start := 4, end_ := 5 }].map some)
          [some { start := 2, end_ := 10 }] = .ok (res, changed) →
        (changed = false ↔
          res = [({ start := 1, end_ := 2 } : entry), { start := 4, end_ := 5 }].map some)) ∧
    (StartsAscending [({ start := 1, end_ := 2 } : entry), { start := 4, end_ := 5 }] →
      ∃ (res : Timeline) (changed : Bool),
        Add 10000 ([({ start := 1, end_ := 2 } : entry), { start := 4, end_ := 5 }].map some)
          [some { start := 2, end_ := 10 }] = .ok (res, changed)) :=
  ⟨by decide, by decide,
    Add_flag_iff_unchanged 10000 [{ start := 1, end_ := 2 }, { start := 4, end_ := 5 }]
      { start := 2, end_ := 10 } (by decide) (by decide)⟩

/-- C14: there are a timeline that satisfies the invariant and two valid intervals `A`, `B`
for which `Add(A)` followed by `Add(B)` ends in a different sequence than `Add(B)`
followed by `Add(A)`: on `[4..5]` with `A = [1..2]` and `B = [2..10]` the first order ends
in `[1..10], [4..5]` and the second in `[1..10]`. -/
theorem Add_order_changes_result :
    ∃ (tl : List entry) (a b : entry),
      (∀ e ∈ tl, Valid 10000 e) ∧ Invariant 10000 tl ∧ Valid 10000 a ∧ Valid 10000 b ∧
      ∃ (t1 r1 t2 r2 : Timeline) (u1 v1 u2 v2 : Bool),
        Add 10000 (tl.map some) [some a] = .ok (t1, u1) ∧
        Add 10000 t1 [some b] = .ok (r1, v1) ∧
        Add 10000 (tl.map some) [some b] = .ok (t2, u2) ∧
        Add 10000 t2 [some a] = .ok (r2, v2) ∧
        r1 ≠ r2 := by
  refine ⟨[{ start := 4, end_ := 5 }], { start := 1, end_ := 2 }, { start := 2, end_ := 10 },
    by decide, by decide, by decide, by decide,
    [some { start := 1, end_ := 2 }, some { start := 4, end_ := 5 }],
    [some { start := 1, end_ := 10 }, some { start := 4, end_ := 5 }],
    [some { start := 2, end_ := 10 }],
    [some { start := 1, end_ := 10 }],
    true, true, true, true, by decide, by decide, by decide, by decide, by decide⟩

/-- C15: `NewEntry` fails with `ErrInvalidTimelineStart` exactly when the start is the
zero instant; for any other start it fails with `ErrInvalidTimelineOrder` exactly when the
end is set and the start is not strictly before it; in every other case it succeeds and
the entry's `StartTime` is the given start. -/
theorem NewEntry_validation (eot start end_ : Int) :
    (NewEntry eot start end_ = .error .ErrInvalidTimelineStart ↔ start = zeroTime) ∧
    (start ≠ zeroTime →
      (NewEntry eot start end_ = .error .ErrInvalidTimelineOrder ↔
        (end_ ≠ zeroTime ∧ ¬ start < end_))) ∧
    (start ≠ zeroTime → ¬ (end_ ≠ zeroTime ∧ ¬ start < end_) →
      ∃ e, NewEntry eot start end_ = .ok e ∧ e.StartTime = start) := by
  unfold NewEntry entry.StartTime
  refine ⟨?_, ?_, ?_⟩
  · split_ifs <;> simp_all
  · intro h0
    rw [if_neg h0]
    by_cases hc : end_ = zeroTime ∨ start < end_
    · rw [if_neg (not_not.2 hc)]
      simp only [reduceCtorEq, false_iff, not_and, not_not]
      intro hne
      rcases hc with hc | hc
      · exact absurd hc hne
      · exact hc
    · rw [if_pos hc]
      simp only [true_iff]
      push_neg at hc
      exact ⟨hc.1, not_lt.2 hc.2⟩
  · intro h0 h1
    rw [if_neg h0]
    push_neg at h1
    have : end_ = zeroTime ∨ start < end_ := by
      by_cases h : end_ = zeroTime
      · exact Or.inl h
      · exact Or.inr (h1 h)
    rw [if_neg (not_not.2 this)]
    exact ⟨_, rfl, rfl⟩

/-- C16, the claim as stated fails: with the default sentinel, `NewEntry` with the start
10000-01-01T00:00:00 UTC (one nanosecond after the sentinel) and the end omitted succeeds,
and the end that `EndTime` reports (the sentinel) is not after the start. -/
theorem NewEntry_open_end_not_after_start :
    NewEntry defaultEndOfTime 315537897600000000000 zeroTime =
      .ok { start := 315537897600000000000, end_ := defaultEndOfTime } ∧
    ¬ (entry.StartTime { start := 315537897600000000000, end_ := defaultEndOfTime } <
        (entry.EndTime defaultEndOfTime
          { start := 315537897600000000000, end_ := defaultEndOfTime }).1) := by
  decide

/-- C16, amended: whenever `NewEntry` succeeds and either the end was given or the start
is before the sentinel, the end that `EndTime` reports is strictly after `StartTime`. -/
theorem NewEntry_end_after_start (eot start end_ : Int) (e : entry)
    (h : NewEntry eot start end_ = .ok e) (hend : end_ ≠ zeroTime ∨ start < eot) :
    e.StartTime < (e.EndTime eot).1 := by
  unfold NewEntry at h
  unfold entry.StartTime entry.EndTime
  simp only []
  split_ifs at h with h1 h2 h3
  · simp only [Except.ok.injEq] at h
    rw [← h]
    simp only []
    rcases hend with hh | hh
    · exact absurd h3 hh
    · exact hh
  · simp only [Except.ok.injEq] at h
    rw [← h]
    simp only []
    push_neg at h2
    rcases h2 with hh | hh
    · exact absurd hh h3
    · exact hh

/-- Witness for the amended C16: sentinel `10000`, start `3`, end `7`. -/
theorem NewEntry_end_after_start_witness :
    NewEntry 10000 3 7 = .ok { start := 3, end_ := 7 } ∧
    ((7 : Int) ≠ zeroTime ∨ (3 : Int) < 10000) ∧
    entry.StartTime { start := 3, end_ := 7 } <
      (entry.EndTime 10000 { start := 3, end_ := 7 }).1 :=
  ⟨by decide, Or.inl (by decide),
    NewEntry_end_after_start 10000 3 7 { start := 3, end_ := 7 } (by decide)
      (Or.inl (by decide))⟩

/-- C17: for an entry built by `NewEntry`, `EndTime` returns the stored end (the given
end, or the sentinel when the end was omitted) together with a flag that is `false`
exactly when the stored end equals the sentinel; an entry built with the end omitted
reports the sentinel and `false`, and one built with an explicit end equal to the sentinel
reports `false`. -/
theorem EndTime_hasEnd_iff (eot start end_ : Int) (e : entry)
    (h : NewEntry eot start end_ = .ok e) :
    (e.EndTime eot).1 = e.end_ ∧
    e.end_ = (if end_ = zeroTime then eot else end_) ∧
    ((e.EndTime eot).2 = false ↔ e.end_ = eot) ∧
    (end_ = zeroTime → e.EndTime eot = (eot, false)) ∧
    (end_ = eot → (e.EndTime eot).2 = false) := by
  have hstored : e.end_ = (if end_ = zeroTime then eot else end_) := by
    unfold NewEntry at h
    split_ifs at h <;> simp only [Except.ok.injEq] at h <;> rw [← h] <;> simp [*]
  unfold entry.EndTime
  refine ⟨rfl, hstored, by simp, ?_, ?_⟩
  · intro h0
    rw [if_pos h0] at hstored
    simp [hstored]
  · intro h0
    have : e.end_ = eot := by
      rw [hstored]
      split_ifs
      · rfl
      · exact h0
    simp [this]

/-- Witness for C17: sentinel `10000`, start `3`, end omitted. -/
theorem EndTime_hasEnd_iff_witness :
    NewEntry 10000 3 zeroTime = .ok { start := 3, end_ := 10000 } ∧
    (entry.EndTime 10000 { start := 3, end_ := 10000 }).1 =
      entry.end_ { start := 3, end_ := 10000 } ∧
    entry.end_ { start := 3, end_ := 10000 } =
      (if zeroTime = zeroTime then 10000 else zeroTime) ∧
    ((entry.EndTime 10000 { start := 3, end_ := 10000 }).2 = false ↔
      entry.end_ { start := 3, end_ := 10000 } = 10000) ∧
    (zeroTime = zeroTime →
      entry.EndTime 10000 { start := 3, end_ := 10000 } = (10000, false)) ∧
    (zeroTime = 10000 → (entry.EndTime 10000 { start := 3, end_ := 10000 }).2 = false) :=
  ⟨by decide, EndTime_hasEnd_iff 10000 3 zeroTime { start := 3, end_ := 10000 } (by decide)⟩

/-- C18, evaluated on the code: with the default sentinel, the entry built by `NewEntry`
with the start 2000-01-01T00:00:00 UTC and the end omitted has a `Duration` equal to the
largest `time.Duration` (about 292 years), not to the sentinel minus the start (about
8000 years): `Time.Sub` saturates. -/
theorem Duration_saturates_for_open_entry :
    NewEntry defaultEndOfTime 63082281600000000000 zeroTime =
      .ok { start := 63082281600000000000, end_ := defaultEndOfTime } ∧
    entry.Duration { start := 63082281600000000000, end_ := defaultEndOfTime } =
      maxDuration ∧
    entry.Duration { start := 63082281600000000000, end_ := defaultEndOfTime } ≠
      defaultEndOfTime - 63082281600000000000 := by
  decide

/-- C19: for every lower-casing function that leaves the seven lowercase names unchanged
(as `strings.ToLower` does), each of the seven tags has as its `String` and `MarshalText`
the name the specification lists for it, and `UnmarshalText` applied to that marshalled
text succeeds and stores the tag in the receiver, whatever the receiver held. -/
theorem IntersectionType_text_round_trip (toLower : String → String)
    (hlower : ∀ v : IntersectionType, toLower (tagName v) = tagName v)
    (v : IntersectionType) :
    intersectionTypeString v.code = tagName v ∧
    MarshalText v.code = (tagName v, none) ∧
    ∀ recv : Int, UnmarshalText toLower recv (MarshalText v.code).1 = (v.code, none) := by
  have hs : intersectionTypeString v.code = tagName v := by
    unfold intersectionTypeString
    rw [stringTable_lookup]
  refine ⟨hs, by unfold MarshalText; rw [hs], fun recv => ?_⟩
  unfold UnmarshalText parseIntersectionTypeValue MarshalText
  simp only [hs, hlower, parseTable_lookup_name]

/-- Witness for C19: ASCII lower-casing and the tag `StartOverlap`. -/
theorem IntersectionType_text_round_trip_witness :
    (∀ v : IntersectionType, asciiToLower (tagName v) = tagName v) ∧
    intersectionTypeString (IntersectionType.code .StartOverlap) = tagName .StartOverlap ∧
    MarshalText (IntersectionType.code .StartOverlap) = (tagName .StartOverlap, none) ∧
    ∀ recv : Int,
      UnmarshalText asciiToLower recv (MarshalText (IntersectionType.code .StartOverlap)).1 =
        (IntersectionType.code .StartOverlap, none) :=
  ⟨fun v => by cases v <;> decide,
    IntersectionType_text_round_trip asciiToLower (fun v => by cases v <;> decide)
      .StartOverlap⟩

/-- C20: for every text `s`, if `s` lower-cased is the name of a tag then `UnmarshalText`
succeeds and stores that tag and `ParseIntersectionType` returns it; if `s` lower-cased is
none of the seven names then `UnmarshalText` fails with `ErrInvalidIntersectionType` and
leaves the receiver as it was, and `ParseIntersectionType` returns `None`. -/
theorem parse_strict_and_lossy (toLower : String → String) (s : String) (recv : Int) :
    (∀ tag : IntersectionType, toLower s = tagName tag →
      UnmarshalText toLower recv s = (tag.code, none) ∧
      ParseIntersectionType toLower s = tag) ∧
    ((∀ tag : IntersectionType, toLower s ≠ tagName tag) →
      UnmarshalText toLower recv s = (recv, some .ErrInvalidIntersectionType) ∧
      ParseIntersectionType toLower s = .None) := by
  constructor
  · intro tag h
    unfold UnmarshalText ParseIntersectionType parseIntersectionTypeValue
    simp only [h, parseTable_lookup_name, and_self]
  · intro h
    unfold UnmarshalText ParseIntersectionType parseIntersectionTypeValue
    simp only [parseTable_lookup_other (toLower s) h, and_self]

/-- C22: on a timeline of valid intervals whose start times are strictly ascending
(overlapping or touching entries allowed), `Add` of a valid candidate returns a timeline
of non-nil entries whose start times are strictly ascending; and for every list of valid
intervals, `Add` on the empty timeline, `New` and `Normalize` return one and the same
timeline, whose start times are strictly ascending. -/
theorem Add_keeps_starts_ascending (eot : Int) (tl : List entry) (c : entry)
    (cs : List entry) (hv : ∀ e ∈ tl, Valid eot e) (hs : StartsAscending tl)
    (hc : Valid eot c) (hcs : ∀ x ∈ cs, Valid eot x) :
    (∃ (res : List entry) (changed : Bool),
      Add eot (tl.map some) [some c] = .ok (res.map some, changed) ∧ StartsAscending res) ∧
    (∃ (res : List entry) (changed : Bool),
      Add eot [] (cs.map some) = .ok (res.map some, changed) ∧
      New eot (cs.map some) = .ok (res.map some) ∧
      Normalize eot (cs.map some) = .ok (res.map some) ∧
      StartsAscending res) := by
  constructor
  · refine ⟨(addEntryEntries eot c tl).1, (addEntryEntries eot c tl).2, ?_,
      addEntryEntries_starts eot c tl hs⟩
    rw [Add_single]
    exact addEntry_eq eot c hc tl hv hs
  · obtain ⟨b, hb⟩ := addAll_eq eot cs [] false hcs (by simp) List.Pairwise.nil
    have hadd : Add eot [] (cs.map some) = .ok ((replayEntries eot [] cs).map some, b) := hb
    refine ⟨replayEntries eot [] cs, b, hadd, ?_, Normalize_eq eot cs hcs,
      replayEntries_starts eot cs [] List.Pairwise.nil⟩
    unfold New
    rw [hadd]

/-- Witness for C22: the overlapping timeline `[1..10], [4..5]`, the candidate `[2..3]`
and the list `[10..20], [40..50], [20..100]`. -/
theorem Add_keeps_starts_ascending_witness :
    (∀ e ∈ [({ start := 1, end_ := 10 } : entry), { start := 4, end_ := 5 }],
      Valid 10000 e) ∧
    StartsAscending [({ start := 1, end_ := 10 } : entry), { start := 4, end_ := 5 }] ∧
    Valid 10000 { start := 2, end_ := 3 } ∧
    (∀ x ∈ [({ start := 10, end_ := 20 } : entry), { start := 40, end_ := 50 },
      { start := 20, end_ := 100 }], Valid 10000 x) ∧
    ((∃ (res : List entry) (changed : Bool),
      Add 10000 ([({ start := 1, end_ := 10 } : entry), { start := 4, end_ := 5 }].map some)
        [some { start := 2, end_ := 3 }] = .ok (res.map some, changed) ∧
      StartsAscending res) ∧
    (∃ (res : List entry) (changed : Bool),
      Add 10000 [] ([({ start := 10, end_ := 20 } : entry), { start := 40, end_ := 50 },
        { start := 20, end_ := 100 }].map some) = .ok (res.map some, changed) ∧
      New 10000 ([({ start := 10, end_ := 20 } : entry), { start := 40, end_ := 50 },
        { start := 20, end_ := 100 }].map some) = .ok (res.map some) ∧
      Normalize 10000 ([({ start := 10, end_ := 20 } : entry), { start := 40, end_ := 50 },
        { start := 20, end_ := 100 }].map some) = .ok (res.map some) ∧
      StartsAscending res)) :=
  ⟨by decide, by simp [StartsAscending, entry.StartTime], by decide, by decide,
    Add_keeps_starts_ascending 10000 [{ start := 1, end_ := 10 }, { start := 4, end_ := 5 }]
      { start := 2, end_ := 3 }
      [{ start := 10, end_ := 20 }, { start := 40, end_ := 50 }, { start := 20, end_ := 100 }]
      (by decide) (by simp [StartsAscending, entry.StartTime]) (by decide) (by decide)⟩

/-- C23: on a timeline of valid intervals with strictly ascending starts (the invariant
is not assumed), `Add` of a valid candidate `c` returns a timeline of non-nil entries one
of which starts at or before `c` starts and ends at or after `c` ends; and `Contains`
reports found on that timeline for every set instant in the span of `c`. -/
theorem Add_result_covers_candidate (eot : Int) (tl : List entry) (c : entry)
    (hv : ∀ e ∈ tl, Valid eot e) (hs : StartsAscending tl) (hc : Valid eot c) :
    ∃ (res : List entry) (changed : Bool),
      Add eot (tl.map some) [some c] = .ok (res.map some, changed) ∧
      (∃ e ∈ res, e.StartTime ≤ c.StartTime ∧ c.spanEnd eot ≤ e.spanEnd eot) ∧
      ∀ t : Int, t ≠ zeroTime → c.StartTime ≤ t → t ≤ c.spanEnd eot →
        ∃ (sd ed : Int), Contains eot (res.map some) t = .ok (true, sd, ed) := by
  obtain ⟨e, he, h1, h2⟩ := addEntryEntries_holds_candidate eot c tl
  refine ⟨(addEntryEntries eot c tl).1, (addEntryEntries eot c tl).2, ?_, ?_, ?_⟩
  · rw [Add_single]
    exact addEntry_eq eot c hc tl hv hs
  · refine ⟨e, he, h1, ?_⟩
    rw [spanEnd_eq, spanEnd_eq]
    exact h2
  · intro t ht hlo hhi
    rw [spanEnd_eq] at hhi
    simp only [entry.StartTime] at hlo
    have hm : Matches eot t e := by
      unfold Matches entry.StartTime entry.EndTime
      simp only []
      by_cases heq : e.start = t
      · exact Or.inl heq
      · exact Or.inr ⟨by omega, Or.inr (by omega)⟩
    obtain ⟨found, sd, ed, hrun, hiff, _, _⟩ :=
      containsLoop_spec eot t (addEntryEntries eot c tl).1
    have hfound : found = true := hiff.2 ⟨e, he, hm⟩
    refine ⟨sd, ed, ?_⟩
    unfold Contains
    rw [if_neg ht, hrun, hfound]

/-- Witness for C23: the overlapping timeline `[1..10], [4..5]` and the candidate
`[2..30]`. -/
theorem Add_result_covers_candidate_witness :
    (∀ e ∈ [({ start := 1, end_ := 10 } : entry), { start := 4, end_ := 5 }],
      Valid 10000 e) ∧
    StartsAscending [({ start := 1, end_ := 10 } : entry), { start := 4, end_ := 5 }] ∧
    Valid 10000 { start := 2, end_ := 30 } ∧
    ∃ (res : List entry) (changed : Bool),
      Add 10000 ([({ start := 1, end_ := 10 } : entry), { start := 4, end_ := 5 }].map some)
        [some { start := 2, end_ := 30 }] = .ok (res.map some, changed) ∧
      (∃ e ∈ res, e.StartTime ≤ entry.StartTime { start := 2, end_ := 30 } ∧
        entry.spanEnd 10000 { start := 2, end_ := 30 } ≤ e.spanEnd 10000) ∧
      ∀ t : Int, t ≠ zeroTime → entry.StartTime { start := 2, end_ := 30 } ≤ t →
        t ≤ entry.spanEnd 10000 { start := 2, end_ := 30 } →
          ∃ (sd ed : Int), Contains 10000 (res.map some) t = .ok (true, sd, ed) :=
  ⟨by decide, by simp [StartsAscending, entry.StartTime], by decide,
    Add_result_covers_candidate 10000
      [{ start := 1, end_ := 10 }, { start := 4, end_ := 5 }] { start := 2, end_ := 30 }
      (by decide) (by simp [StartsAscending, entry.StartTime]) (by decide)⟩

/-- C24: on a timeline of valid intervals with strictly ascending starts, `Add` of a
valid candidate returns normally and every entry of the resulting timeline is non-nil
and a valid interval with start strictly before end: no `NewEntry` call whose error
`addEntry` drops has failed. -/
theorem Add_stores_only_valid_entries (eot : Int) (tl : List entry) (c : entry)
    (hv : ∀ e ∈ tl, Valid eot e) (hs : StartsAscending tl) (hc : Valid eot c) :
    ∃ (res : List entry) (changed : Bool),
      Add eot (tl.map some) [some c] = .ok (res.map some, changed) ∧
      ∀ e ∈ res, Valid eot e ∧ e.StartTime < e.spanEnd eot := by
  refine ⟨(addEntryEntries eot c tl).1, (addEntryEntries eot c tl).2, ?_, ?_⟩
  · rw [Add_single]
    exact addEntry_eq eot c hc tl hv hs
  · intro e he
    have := addEntryEntries_valid eot c hc tl hv e he
    exact ⟨this, this.2⟩

/-- Witness for C24: the timeline `[1..2], [4..5], [8..9]` and the candidate `[2..6]`. -/
theorem Add_stores_only_valid_entries_witness :
    (∀ e ∈ [({ start := 1, end_ := 2 } : entry), { start := 4, end_ := 5 },
      { start := 8, end_ := 9 }], Valid 10000 e) ∧
    StartsAscending [({ start := 1, end_ := 2 } : entry), { start := 4, end_ := 5 },
      { start := 8, end_ := 9 }] ∧
    Valid 10000 { start := 2, end_ := 6 } ∧
    ∃ (res : List entry) (changed : Bool),
      Add 10000 ([({ start := 1, end_ := 2 } : entry), { start := 4, end_ := 5 },
        { start := 8, end_ := 9 }].map some) [some { start := 2, end_ := 6 }] =
          .ok (res.map some, changed) ∧
      ∀ e ∈ res, Valid 10000 e ∧ e.StartTime < e.spanEnd 10000 :=
  ⟨by decide, by simp [StartsAscending, entry.StartTime], by decide,
    Add_stores_only_valid_entries 10000
      [{ start := 1, end_ := 2 }, { start := 4, end_ := 5 }, { start := 8, end_ := 9 }]
      { start := 2, end_ := 6 } (by decide) (by simp [StartsAscending, entry.StartTime])
      (by decide)⟩

/-- C25: on a timeline of valid intervals in which every entry ends strictly before the
next one starts, `Normalize` returns the sequence unchanged; and `Normalize` of the empty
timeline is the empty timeline. -/
theorem Normalize_identity_on_normalized (eot : Int) (tl : List entry)
    (hv : ∀ e ∈ tl, Valid eot e) (hinv : Invariant eot tl) :
    Normalize eot (tl.map some) = .ok (tl.map some) ∧ Normalize eot [] = .ok [] := by
  refine ⟨?_, rfl⟩
  rw [Normalize_eq eot tl hv,
    replayEntries_normalized eot tl [] (by simpa using hv)
      (by simpa using invariant_pairwise eot tl hinv hv)]
  simp

/-- Witness for C25: the timeline `[1..2], [4..5], [8..10000]` with the sentinel `10000`. -/
theorem Normalize_identity_on_normalized_witness :
    (∀ e ∈ [({ start := 1, end_ := 2 } : entry), { start := 4, end_ := 5 },
      { start := 8, end_ := 10000 }], Valid 10000 e) ∧
    Invariant 10000 [{ start := 1, end_ := 2 }, { start := 4, end_ := 5 },
      { start := 8, end_ := 10000 }] ∧
    Normalize 10000 ([({ start := 1, end_ := 2 } : entry), { start := 4, end_ := 5 },
      { start := 8, end_ := 10000 }].map some) =
        .ok ([({ start := 1, end_ := 2 } : entry), { start := 4, end_ := 5 },
          { start := 8, end_ := 10000 }].map some) ∧
    Normalize 10000 [] = .ok [] :=
  ⟨by decide, by decide,
    Normalize_identity_on_normalized 10000
      [{ start := 1, end_ := 2 }, { start := 4, end_ := 5 }, { start := 8, end_ := 10000 }]
      (by decide) (by decide)⟩

/-- C26: for all entries `a` and `b`, `Intersect` returns `None` for `a` against `b`
exactly when it does for `b` against `a`, and likewise for `Adjacent`. -/
theorem Intersect_none_adjacent_symmetric (eot : Int) (a b : entry) :
    (Intersect eot a b = .None ↔ Intersect eot b a = .None) ∧
    (Intersect eot a b = .Adjacent ↔ Intersect eot b a = .Adjacent) := by
  have hnone : ∀ x y : entry, Intersect eot x y = .None ↔
      ((y.start < x.start ∧ y.end_ < x.start) ∨ (x.start < y.start ∧ x.end_ < y.start)) := by
    intro x y
    rw [Intersect_eq]
    unfold Classify
    split_ifs <;> simp <;> omega
  have hadj : ∀ x y : entry, Intersect eot x y = .Adjacent ↔
      ((y.start < x.start ∧ y.end_ = x.start) ∨ (x.start < y.start ∧ y.start = x.end_)) := by
    intro x y
    rw [Intersect_eq]
    unfold Classify
    split_ifs <;> simp <;> omega
  constructor
  · rw [hnone a b, hnone b a]
    exact Or.comm
  · rw [hadj a b, hadj b a]
    constructor <;> rintro (⟨h1, h2⟩ | ⟨h1, h2⟩)
    · exact Or.inr ⟨h1, h2.symm⟩
    · exact Or.inl ⟨h1, h2.symm⟩
    · exact Or.inr ⟨h1, h2.symm⟩
    · exact Or.inl ⟨h1, h2.symm⟩

/-- C21: on a timeline of valid intervals that satisfies the invariant, let the candidate
`c` be valid, classified `None` against every entry before position `i` and `Cover` or
`EndOverlap` against the entry `r` at position `i`.  Then `Add` returns `true`; the
result keeps the entries before `i`, puts in place of `r` and of every following entry
whose start is at or before the end of `c` the single entry from the smaller of the two
starts to the larger of the end of `c` and the end of the last absorbed entry, and keeps
the other following entries in their order; and the result satisfies the invariant. -/
theorem Add_collapses_entries (eot : Int) (pre : List entry) (r : entry)
    (rest : List entry) (c : entry)
    (hv : ∀ e ∈ pre ++ r :: rest, Valid eot e) (hinv : Invariant eot (pre ++ r :: rest))
    (hc : Valid eot c) (hpre : ∀ p ∈ pre, Intersect eot p c = .None)
    (hI : Intersect eot r c = .Cover ∨ Intersect eot r c = .EndOverlap) :
    Add eot ((pre ++ r :: rest).map some) [some c] =
      .ok ((pre ++ mergedEntry eot r c rest :: keptAfter eot c rest).map some, true) ∧
    Invariant eot (pre ++ mergedEntry eot r c rest :: keptAfter eot c rest) := by
  have hp := invariant_pairwise eot _ hinv hv
  have hcol := addEntryEntries_collapse eot r c rest hc hI pre hv hp hpre
  constructor
  · rw [Add_single, addEntry_eq eot c hc _ hv (invariant_starts eot _ hinv hv), hcol]
  · apply invariant_of_pairwise
    have hpa := List.pairwise_append.1 hp
    have hrp := List.pairwise_cons.1 hpa.2.1
    have hr := hv r (by simp)
    have hvr : ∀ e ∈ rest, Valid eot e := fun e he => hv e (by simp [he])
    have hms := mergeEntries_spec eot r c rest hr hvr hpa.2.1
    refine List.pairwise_append.2 ⟨hpa.1, List.pairwise_cons.2 ⟨hms.2, ?_⟩, ?_⟩
    · exact hrp.2.sublist (List.filter_sublist _)
    · intro a ha b hb
      rcases List.mem_cons.1 hb with h | h
      · have hbefore := before_merge_position eot a r c (hv a (by simp [ha])) hc
          (hpa.2.2 a ha r (List.mem_cons_self _ _)) (hpre a ha) hI
        have har := hpa.2.2 a ha r (List.mem_cons_self _ _)
        rw [h]
        unfold mergedEntry
        simp only [entry.StartTime]
        omega
      · exact hpa.2.2 a ha b (List.mem_cons_of_mem _ (List.mem_of_mem_filter h))

/-- Witness for C21: the timeline `[1..2], [10..11], [14..15], [20..30], [40..50]` and the
candidate `[9..25]`, which covers `[10..11]` and absorbs `[14..15]` and `[20..30]`. -/
theorem Add_collapses_entries_witness :
    (∀ e ∈ [({ start := 1, end_ := 2 } : entry)] ++ { start := 10, end_ := 11 } ::
      [{ start := 14, end_ := 15 }, { start := 20, end_ := 30 }, { start := 40, end_ := 50 }],
      Valid 10000 e) ∧
    Invariant 10000 ([({ start := 1, end_ := 2 } : entry)] ++ { start := 10, end_ := 11 } ::
      [{ start := 14, end_ := 15 }, { start := 20, end_ := 30 }, { start := 40, end_ := 50 }]) ∧
    Valid 10000 { start := 9, end_ := 25 } ∧
    (∀ p ∈ [({ start := 1, end_ := 2 } : entry)],
      Intersect 10000 p { start := 9, end_ := 25 } = .None) ∧
    (Intersect 10000 { start := 10, end_ := 11 } { start := 9, end_ := 25 } = .Cover ∨
      Intersect 10000 { start := 10, end_ := 11 } { start := 9, end_ := 25 } = .EndOverlap) ∧
    (Add 10000 (List.map some ([({ start := 1, end_ := 2 } : entry)] ++
        ({ start := 10, end_ := 11 } : entry) ::
        [{ start := 14, end_ := 15 }, { start := 20, end_ := 30 },
          { start := 40, end_ := 50 }])) [some { start := 9, end_ := 25 }] =
      .ok (([({ start := 1, end_ := 2 } : entry)] ++
        mergedEntry 10000 { start := 10, end_ := 11 } { start := 9, end_ := 25 }
          [{ start := 14, end_ := 15 }, { start := 20, end_ := 30 },
            { start := 40, end_ := 50 }] ::
        keptAfter 10000 { start := 9, end_ := 25 }
          [{ start := 14, end_ := 15 }, { start := 20, end_ := 30 },
            { start := 40, end_ := 50 }]).map some, true) ∧
    Invariant 10000 ([({ start := 1, end_ := 2 } : entry)] ++
      mergedEntry 10000 { start := 10, end_ := 11 } { start := 9, end_ := 25 }
        [{ start := 14, end_ := 15 }, { start := 20, end_ := 30 },
          { start := 40, end_ := 50 }] ::
      keptAfter 10000 { start := 9, end_ := 25 }
        [{ start := 14, end_ := 15 }, { start := 20, end_ := 30 },
          { start := 40, end_ := 50 }])) :=
  ⟨by decide, by decide, by decide, by decide, Or.inl (by decide),
    Add_collapses_entries 10000 [{ start := 1, end_ := 2 }] { start := 10, end_ := 11 }
      [{ start := 14, end_ := 15 }, { start := 20, end_ := 30 }, { start := 40, end_ := 50 }]
      { start := 9, end_ := 25 } (by decide) (by decide) (by decide) (by decide)
      (Or.inl (by decide))⟩

end GoTimeline
